import Mathlib

/-!
Verification of the AgFrame hybrid-retrieval and self-correction core.

Shallow embedding conventions:
* Python `dict` objects are modelled as insertion-ordered association lists
  (`List (k × v)`) with Python semantics: updating an existing key keeps its
  position, inserting a new key appends at the end.
* Python `float` arithmetic is modelled exactly over `ℚ`; `math.log` is an
  opaque host primitive and is threaded through as an abstract parameter
  `Lg : ℚ → ℚ`, with the analytic facts about `ln` that a proof needs taken
  as explicit hypotheses (each satisfiable, e.g. by `fun q => q - 1`).
* `list.sort(key=..., reverse=True)` / `sorted(..., reverse=True)` are stable
  descending sorts; they are modelled by a stable insertion sort
  (`sortDescBy`), which agrees with any stable descending sort.
* Fallible collaborator calls are modelled as `Except` values passed in as
  parameters, quantifying over every collaborator behavior.
-/

namespace AgFrame

/-- Lookup in a Python-style dict (`d.get(k)`). -/
def dget? {α β : Type} [DecidableEq α] : List (α × β) → α → Option β
  | [], _ => none
  | (k, v) :: rest, a => if k = a then some v else dget? rest a

/-- Lookup with default (`d.get(k, dflt)`). -/
def dgetD {α β : Type} [DecidableEq α] (d : List (α × β)) (a : α) (dflt : β) : β :=
  (dget? d a).getD dflt

/-- Python dict assignment `d[k] = v`: update in place if the key exists,
else append at the end (insertion order preserved). -/
def dset {α β : Type} [DecidableEq α] : List (α × β) → α → β → List (α × β)
  | [], a, b => [(a, b)]
  | (k, v) :: rest, a, b =>
    if k = a then (k, b) :: rest else (k, v) :: dset rest a b

/-- Membership test `k in d`. -/
def dmem {α β : Type} [DecidableEq α] (d : List (α × β)) (a : α) : Bool :=
  (dget? d a).isSome

/-- Stable insertion of one element into a descending-sorted list: the new
element goes after every element whose key is ≥ its key (matching the
behavior of Python's stable `sort(..., reverse=True)` on equal keys). -/
def insertDescBy {α : Type} (key : α → ℚ) (x : α) : List α → List α
  | [] => [x]
  | y :: ys => if key y < key x then x :: y :: ys else y :: insertDescBy key x ys

/-- Stable descending sort by a rational key; models Python's stable
`sort(key=..., reverse=True)`. -/
def sortDescBy {α : Type} (key : α → ℚ) : List α → List α
  | [] => []
  | x :: xs => insertDescBy key x (sortDescBy key xs)

/-! ## Tokenizer (src/app/skills/rag/bm25/tokenizer.py)

`tokenize` lower-cases the text, extracts ASCII-letter words with the regex
`\b[a-zA-Z]+\b`, and (in `zh`/`mixed` modes) runs the external `jieba`
segmenter; tokens of length ≤ 1 are dropped. -/

def isAsciiUpper (c : Char) : Bool := ('A' ≤ c) && (c ≤ 'Z')

def isAsciiLetter (c : Char) : Bool :=
  (('a' ≤ c) && (c ≤ 'z')) || isAsciiUpper c

def isAsciiDigit (c : Char) : Bool := ('0' ≤ c) && (c ≤ '9')

/-- Regex word character `\w` = `[a-zA-Z0-9_]` (ASCII view, as in the
source's byte-oriented patterns on the inputs involved). -/
def isWordChar (c : Char) : Bool :=
  isAsciiLetter c || isAsciiDigit c || (c = '_')

def isAlnumAscii (c : Char) : Bool := isAsciiLetter c || isAsciiDigit c

/-- Python `str.lower()` restricted to ASCII letters. -/
def lowerChar (c : Char) : Char :=
  if isAsciiUpper c then Char.ofNat (c.toNat + 32) else c

def toLowerAscii (s : String) : String :=
  String.mk (s.data.map lowerChar)

/-- Split a character list into its maximal runs of characters satisfying
`p`; characters not satisfying `p` are discarded.  `cur` is the current run
accumulated in reverse. -/
def splitRunsAux (p : Char → Bool) : List Char → List Char → List (List Char)
  | [], cur => if cur = [] then [] else [cur.reverse]
  | c :: cs, cur =>
    if p c then splitRunsAux p cs (c :: cur)
    else if cur = [] then splitRunsAux p cs []
    else cur.reverse :: splitRunsAux p cs []

def splitRuns (p : Char → Bool) (s : String) : List String :=
  (splitRunsAux p s.data []).map String.mk

/-- Model of `re.findall(r"\b[a-zA-Z]+\b", text)`: a match is a maximal run of word
characters (`[a-zA-Z0-9_]`) that consists solely of ASCII letters — the
`\b` anchors reject letter runs adjacent to digits or underscores. -/
def reFindAsciiWords (s : String) : List String :=
  (splitRuns isWordChar s).filter (fun w => w.data.all isAsciiLetter)

/-- Python `text.replace(" ", "")`. -/
def stripSpaces (s : String) : String :=
  String.mk (s.data.filter (fun c => c ≠ ' '))

/-- Modelled from the spec: the CJK word-segmentation pass (§4.1) is the
external `jieba` library, which is not part of this repository.  On text
containing no CJK characters its segmenter emits each maximal ASCII
alphanumeric run as a single token (non-alphanumeric characters come out as
single-character tokens, which the length-≤-1 filter removes, so they are
omitted here).  In particular a whitespace-stripped all-letter string is
returned whole as one token. -/
def jiebaCutNonHan (s : String) : List String :=
  splitRuns isAlnumAscii s

inductive Lang where
  | en
  | zh
  | mixed
deriving DecidableEq

/-- Tokenizer state: the language mode plus the injected external segmenter
(`jieba.cut`).  The real constructor defaults to `mixed`. -/
structure Tokenizer where
  lang : Lang := Lang.mixed
  cjkCut : String → List String := jiebaCutNonHan

def Tokenizer.tokenize (t : Tokenizer) (text : String) : List String :=
  if text = "" then []
  else
    let lower := toLowerAscii text
    let words :=
      match t.lang with
      | Lang.en => reFindAsciiWords lower
      | Lang.zh => t.cjkCut lower
      | Lang.mixed => reFindAsciiWords lower ++ t.cjkCut (stripSpaces lower)
    words.filter (fun w => 1 < w.length)

/-! ## Inverted index (src/app/skills/rag/bm25/inverted_index.py)

`InvertedIndex.build` is translated exactly as written: it does **not** reset
`term_dict`, `posting_lists`, `doc_lens`, `df` or `idf`, so a second `build`
accumulates into the previous state (this matters below). -/

structure InvertedIndex where
  tokenizer : Tokenizer
  term_dict : List (String × ℕ) := []
  posting_lists : List (List (ℕ × ℕ)) := []
  doc_count : ℕ := 0
  avg_doc_len : ℚ := 0
  doc_lens : List (ℕ × ℕ) := []
  df : List (String × ℕ) := []
  idf : List (String × ℚ) := []

/-- Fresh index as produced by `InvertedIndex.__init__`. -/
def InvertedIndex.init (tok : Tokenizer) : InvertedIndex :=
  { tokenizer := tok }

/-- Inner token loop of `build` for one document:
`term_doc_freq[term][doc_id] += 1`, and `df[term] += 1` once per distinct
term of the document (tracked by `seen`). -/
def buildTokenLoop (doc_id : ℕ) :
    List String → List (String × List (ℕ × ℕ)) → List (String × ℕ) →
    List String → List (String × List (ℕ × ℕ)) × List (String × ℕ)
  | [], tdf, df, _ => (tdf, df)
  | term :: rest, tdf, df, seen =>
    let inner := dgetD tdf term []
    let tdf2 := dset tdf term (dset inner doc_id (dgetD inner doc_id 0 + 1))
    if term ∈ seen then buildTokenLoop doc_id rest tdf2 df seen
    else buildTokenLoop doc_id rest tdf2 (dset df term (dgetD df term 0 + 1))
      (term :: seen)

/-- Outer document loop of `build`: `doc_id` enumerates from `i`; records
`doc_lens[doc_id]` and folds `buildTokenLoop`. -/
def buildDocLoop (tok : Tokenizer) :
    ℕ → List String →
    List (String × List (ℕ × ℕ)) × List (ℕ × ℕ) × List (String × ℕ) →
    List (String × List (ℕ × ℕ)) × List (ℕ × ℕ) × List (String × ℕ)
  | _, [], st => st
  | i, doc :: rest, (tdf, doc_lens, df) =>
    let tokens := tok.tokenize doc
    let doc_lens2 := dset doc_lens i tokens.length
    let p := buildTokenLoop i tokens tdf df []
    buildDocLoop tok (i + 1) rest (p.1, doc_lens2, p.2)

/-- Translation of `_build_term_dict`: for each term of the scan (in first-occurrence
order), `term_id = len(self.term_dict)`, assign `term_dict[term] = term_id`
and append the posting list.  Translated exactly: on a rebuild an existing
term is overwritten without growing `len(term_dict)`, desynchronising the
assigned ids from `posting_lists`. -/
def buildTermDict (tdf : List (String × List (ℕ × ℕ)))
    (td : List (String × ℕ)) (pls : List (List (ℕ × ℕ))) :
    List (String × ℕ) × List (List (ℕ × ℕ)) :=
  tdf.foldl
    (fun st entry => (dset st.1 entry.1 st.1.length, st.2 ++ [entry.2]))
    (td, pls)

/-- Translation of `_compute_idf`: `idf[term] = log((N - df + 0.5) / (df + 0.5) + 1)` for
every entry of `df` (the possibly accumulated dict), with `log` the abstract
host primitive `Lg`.  `N - df` is computed in `ℤ` (Python ints subtract
freely) and then coerced. -/
def computeIdf (Lg : ℚ → ℚ) (doc_count : ℕ) (df : List (String × ℕ))
    (idf : List (String × ℚ)) : List (String × ℚ) :=
  df.foldl
    (fun acc entry =>
      dset acc entry.1
        (Lg ((((doc_count : ℚ) - (entry.2 : ℚ) + 1/2) / ((entry.2 : ℚ) + 1/2)) + 1)))
    idf

def InvertedIndex.build (Lg : ℚ → ℚ) (idx : InvertedIndex)
    (documents : List String) : InvertedIndex :=
  let doc_count := documents.length
  let scan := buildDocLoop idx.tokenizer 0 documents ([], idx.doc_lens, idx.df)
  let tdp := buildTermDict scan.1 idx.term_dict idx.posting_lists
  let df2 := scan.2.2
  let doc_lens2 := scan.2.1
  { idx with
    doc_count := doc_count
    doc_lens := doc_lens2
    df := df2
    term_dict := tdp.1
    posting_lists := tdp.2
    idf := computeIdf Lg doc_count df2 idx.idf
    avg_doc_len := ((doc_lens2.map Prod.snd).sum : ℚ) / (max 1 doc_count : ℕ) }

def InvertedIndex.get_postings (idx : InvertedIndex) (term : String) :
    List (ℕ × ℕ) :=
  match dget? idx.term_dict term with
  | none => []
  | some tid => idx.posting_lists.getD tid []

/-! ## BM25 scorer (src/app/skills/rag/bm25/bm25_scorer.py) -/

structure BM25Scorer where
  k1 : ℚ := 3/2
  b : ℚ := 3/4

/-- The `tf` lookup: linear scan of the posting list, first matching entry wins,
0 if absent. -/
def tfLookup (postings : List (ℕ × ℕ)) (doc_id : ℕ) : ℕ :=
  match postings.find? (fun p => p.1 == doc_id) with
  | some p => p.2
  | none => 0

/-- One loop iteration of `score`: the added contribution of one query-term
occurrence.  Terms absent from `term_dict` are skipped (`continue`); the
division is guarded by `denominator > 0`, else 0 is added. -/
def scoreTermContribution (s : BM25Scorer) (idx : InvertedIndex)
    (doc_len avgdl : ℚ) (doc_id : ℕ) (term : String) : ℚ :=
  if dmem idx.term_dict term then
    let tf : ℚ := (tfLookup (idx.get_postings term) doc_id : ℕ)
    let idfv : ℚ := dgetD idx.idf term 0
    let numerator := tf * (s.k1 + 1)
    let denominator := tf + s.k1 * (1 - s.b + s.b * doc_len / avgdl)
    if 0 < denominator then idfv * numerator / denominator else 0
  else 0

def BM25Scorer.score (s : BM25Scorer) (idx : InvertedIndex) (doc_id : ℕ)
    (query : String) : ℚ :=
  let query_terms := idx.tokenizer.tokenize query
  if query_terms = [] then 0
  else
    let doc_len : ℚ := (dgetD idx.doc_lens doc_id 0 : ℕ)
    let avgdl : ℚ := if idx.avg_doc_len = 0 then 1 else idx.avg_doc_len
    query_terms.foldl
      (fun acc term => acc + scoreTermContribution s idx doc_len avgdl doc_id term) 0

/-- Division-checked evaluation of one term contribution: `none` marks a
division whose divisor is zero (`doc_len / avgdl` is evaluated before the
`denominator > 0` guard, exactly as in the source expression). -/
def scoreTermContributionChecked (s : BM25Scorer) (idx : InvertedIndex)
    (doc_len avgdl : ℚ) (doc_id : ℕ) (term : String) : Option ℚ :=
  if dmem idx.term_dict term then
    if avgdl = 0 then none
    else
      let tf : ℚ := (tfLookup (idx.get_postings term) doc_id : ℕ)
      let idfv : ℚ := dgetD idx.idf term 0
      let numerator := tf * (s.k1 + 1)
      let denominator := tf + s.k1 * (1 - s.b + s.b * doc_len / avgdl)
      if 0 < denominator then
        if denominator = 0 then none else some (idfv * numerator / denominator)
      else some 0
  else some 0

/-- Division-checked `score`: `some` of the score when no division by zero
is ever performed, `none` otherwise. -/
def BM25Scorer.scoreChecked (s : BM25Scorer) (idx : InvertedIndex)
    (doc_id : ℕ) (query : String) : Option ℚ :=
  let query_terms := idx.tokenizer.tokenize query
  if query_terms = [] then some 0
  else
    let doc_len : ℚ := (dgetD idx.doc_lens doc_id 0 : ℕ)
    let avgdl : ℚ := if idx.avg_doc_len = 0 then 1 else idx.avg_doc_len
    query_terms.foldl
      (fun acc term =>
        match acc, scoreTermContributionChecked s idx doc_len avgdl doc_id term with
        | some a, some c => some (a + c)
        | _, _ => none) (some 0)

/-! ## BM25 retriever (src/app/skills/rag/bm25/retriever.py)

A langchain `Document` is modelled by its page content plus the single
metadata entry this component touches (`metadata["bm25_score"]`).  Python
mutates the stored document objects in place; the model threads the updated
`documents` list through the state (cached result lists hold value
snapshots). -/

structure RDoc where
  pageContent : String
  bm25Score : Option ℚ := none
deriving DecidableEq

structure BM25Retriever where
  k1 : ℚ := 3/2
  b : ℚ := 3/4
  documents : List RDoc := []
  indexed : Bool := false
  index : InvertedIndex
  cache : List (String × List (RDoc × ℚ)) := []
  cacheSize : ℕ := 100

/-- Translation of `BM25Retriever.__init__`: fresh tokenizer (default `mixed` mode, with
the external segmenter injected) and an empty `IndexBuilder` index. -/
def BM25Retriever.mkInit (cjk : String → List String) (k1 b : ℚ)
    (cacheSize : ℕ) : BM25Retriever :=
  { k1 := k1, b := b, cacheSize := cacheSize
    index := InvertedIndex.init { lang := Lang.mixed, cjkCut := cjk } }

def BM25Retriever.clear_cache (r : BM25Retriever) : BM25Retriever :=
  { r with cache := [] }

/-- Translation of `add_documents`: replace `_documents`, rebuild via the shared
`IndexBuilder` (whose `InvertedIndex` object is reused, not recreated),
recreate the scorer, set `_indexed`, clear the cache. -/
def BM25Retriever.add_documents (Lg : ℚ → ℚ) (r : BM25Retriever)
    (docs : List RDoc) : BM25Retriever :=
  { r with
    documents := docs
    index := r.index.build Lg (docs.map RDoc.pageContent)
    indexed := true
    cache := [] }

/-- The candidate set: union over query terms of the posting doc ids.
Python collects them in a `set`; iteration order of that set is incidental
(spec §9), modelled here as first-encounter order with deduplication. -/
def candidateDocs (idx : InvertedIndex) (query_terms : List String) : List ℕ :=
  query_terms.foldl
    (fun acc t =>
      (idx.get_postings t).foldl
        (fun acc2 p => if p.1 ∈ acc2 then acc2 else acc2 ++ [p.1]) acc)
    []

/-- Result assembly loop of `search`: for each `(doc_id, score)` of the
top-k slice, skip ids outside `_documents`, set
`doc.metadata["bm25_score"] = score` on the stored document and append
`(doc, score)`. -/
def collectResults (st : List RDoc × List (RDoc × ℚ)) (p : ℕ × ℚ) :
    List RDoc × List (RDoc × ℚ) :=
  if h : p.1 < st.1.length then
    let d := { st.1.get ⟨p.1, h⟩ with bm25Score := some p.2 }
    (st.1.set p.1 d, st.2 ++ [(d, p.2)])
  else st

def BM25Retriever.search (r : BM25Retriever) (query : String) (top_k : ℕ) :
    List (RDoc × ℚ) × BM25Retriever :=
  let cache_key := query ++ ":" ++ toString top_k
  match dget? r.cache cache_key with
  | some res => (res, r)
  | none =>
    if !r.indexed then ([], r)
    else
      let query_terms := r.index.tokenizer.tokenize query
      if query_terms = [] then ([], r)
      else
        let scorer : BM25Scorer := { k1 := r.k1, b := r.b }
        let scores := (candidateDocs r.index query_terms).map
          (fun did => (did, scorer.score r.index did query))
        let top := (sortDescBy (fun p => p.2) scores).take top_k
        let fin := top.foldl collectResults (r.documents, [])
        let cache2 := if r.cacheSize ≤ r.cache.length then [] else r.cache
        (fin.2, { r with documents := fin.1, cache := dset cache2 cache_key fin.2 })

/-- Translation of `batch_search`: sequential application of `search`, threading the
retriever state left to right. -/
def BM25Retriever.batch_search (r : BM25Retriever) (queries : List String)
    (top_k : ℕ) : List (List (RDoc × ℚ)) × BM25Retriever :=
  queries.foldl
    (fun st q =>
      let p := st.2.search q top_k
      (st.1 ++ [p.1], p.2))
    ([], r)

/-! ## RRF fusion (src/app/skills/rag/hybrid_retriever_service.py)

A fusion candidate carries the metadata fields `_stable_doc_key` and the
enrichment step read or write.  The string fields hold
`str(meta.get(...) or "")`; `""` models an absent entry.  The SHA-1 content
digest is modelled by the content itself (the digest is injective on the
contents of interest). -/

structure FDoc where
  dtype : String := ""
  doc_id : String := ""
  parent_chunk_id : String := ""
  child_index : String := ""
  source : String := ""
  pageContent : String := ""
  retrieval_rrf_score : Option ℚ := none
  retrieval_ranks : List (String × ℕ) := []
deriving DecidableEq, Inhabited

structure DocKey where
  dtype : String
  doc_id : String
  parent_chunk_id : String
  child_index : String
  source : String
  contentDigest : String
deriving DecidableEq

def stableDocKey (d : FDoc) : DocKey :=
  { dtype := d.dtype, doc_id := d.doc_id, parent_chunk_id := d.parent_chunk_id
    child_index := d.child_index, source := d.source
    contentDigest := d.pageContent }

/-- State of the `_rrf_fuse` accumulation: `scores`, `best_doc`, `ranks`. -/
structure RrfState where
  scores : List (DocKey × ℚ) := []
  best : List (DocKey × FDoc) := []
  ranks : List (DocKey × List (String × ℕ)) := []

/-- Inner loop of `_rrf_fuse` over one ranked list, `rank` enumerating from
1: `best_doc.setdefault`, score accumulation
`scores.get(key, 0) + weight * (1 / (rrf_k + rank))`, and rank recording. -/
def rrfAddList (rrf_k : ℕ) (name : String) (weight : ℚ) :
    ℕ → List FDoc → RrfState → RrfState
  | _, [], st => st
  | rank, d :: rest, st =>
    let key := stableDocKey d
    rrfAddList rrf_k name weight (rank + 1) rest
      { scores := dset st.scores key
          (dgetD st.scores key 0 + weight * (1 / ((rrf_k : ℚ) + (rank : ℚ))))
        best := if dmem st.best key then st.best else dset st.best key d
        ranks := dset st.ranks key (dset (dgetD st.ranks key []) name rank) }

def rrfScan (ranked_lists : List (String × List FDoc × ℚ)) (rrf_k : ℕ) :
    RrfState :=
  ranked_lists.foldl (fun st l => rrfAddList rrf_k l.1 l.2.2 1 l.2.1 st) {}

/-- Output step of `_rrf_fuse`: stable-sort the score items descending,
truncate to `top_n`, and emit each key's `best_doc` enriched with
`retrieval_rrf_score` and the per-list `retrieval_<name>_rank` entries. -/
def rrfFuse (ranked_lists : List (String × List FDoc × ℚ)) (rrf_k : ℕ)
    (top_n : ℕ) : List FDoc :=
  let st := rrfScan ranked_lists rrf_k
  ((sortDescBy (fun e => e.2) st.scores).take top_n).map
    (fun e =>
      let d := dgetD st.best e.1 {}
      { d with
        retrieval_rrf_score := some e.2
        retrieval_ranks :=
          ranked_lists.foldl
            (fun acc l =>
              match dget? (dgetD st.ranks e.1 []) l.1 with
              | some rk => dset acc l.1 rk
              | none => acc)
            d.retrieval_ranks })

/-- The spec-side fused-score formula (§4.5, §8), for comparison with the
source translation: the contribution of one ranked list to one stable key —
`weight * 1/(rrf_k + rank)` summed over every 1-based rank of that list at
which the key appears. -/
def rrfListScoreSpec (rrf_k : ℕ) (weight : ℚ) (key : DocKey) :
    ℕ → List FDoc → ℚ
  | _, [] => 0
  | rank, d :: rest =>
    (if stableDocKey d = key then weight * (1 / ((rrf_k : ℚ) + (rank : ℚ))) else 0)
      + rrfListScoreSpec rrf_k weight key (rank + 1) rest

/-- Spec-side total fused score of a key: the sum over every list. -/
def rrfScoreSpec (ranked_lists : List (String × List FDoc × ℚ)) (rrf_k : ℕ)
    (key : DocKey) : ℚ :=
  (ranked_lists.map (fun l => rrfListScoreSpec rrf_k l.2.2 key 1 l.2.1)).sum

/-! ## Reranker (src/app/runtime/llm/reranker.py)

`ModelReranker.rerank` is modelled with its collaborators as parameters:
`load` (model loading, which `_load_model` re-raises on failure, outside any
handler in `rerank`) and `scoreBatch` (the batched scoring calls; the
per-batch loops concatenate into one logical batched call, and an exception
anywhere in scoring or in indexing the returned scores is caught by the
`try`/`except` and degrades the whole batch).  The sentence-transformers and
transformers branches share this observable shape. -/

/-- The degraded result: `[(doc, 0.0, i) for i, doc in enumerate(documents)][:top_k]`. -/
def neutralRank (documents : List String) (top_k : ℕ) :
    List (String × ℚ × ℕ) :=
  (documents.enum.map (fun p => (p.2, (0 : ℚ), p.1))).take top_k

/-- Model of `[(documents[i], float(batch_scores[i]), i) for i in range(len(documents))]`;
`none` models the `IndexError` when the model returned too few scores
(caught by the surrounding handler). -/
def zipScores (documents : List String) (batch : List ℚ) :
    Option (List (String × ℚ × ℕ)) :=
  if documents.length ≤ batch.length then
    some (documents.enum.map (fun p => (p.2, batch.getD p.1 0, p.1)))
  else none

def rerank (disabled : Bool) (load : Except String Unit)
    (scoreBatch : String → List String → Except String (List ℚ))
    (queryPrefix docPrefix : String) (query : String)
    (documents : List String) (top_k : ℕ) :
    Except String (List (String × ℚ × ℕ)) :=
  if documents = [] then Except.ok []
  else if disabled then Except.ok (neutralRank documents top_k)
  else
    match load with
    | Except.error e => Except.error e
    | Except.ok _ =>
      let q := queryPrefix ++ query
      let docs := documents.map (fun d => docPrefix ++ d)
      match scoreBatch q docs with
      | Except.error _ => Except.ok (neutralRank documents top_k)
      | Except.ok batch =>
        match zipScores documents batch with
        | none => Except.ok (neutralRank documents top_k)
        | some scores =>
          Except.ok ((sortDescBy (fun t => t.2.1) scores).take top_k)

/-! ## Parent restoration (src/app/skills/rag/rag_engine.py, restore_parents)

A scored child chunk carries `metadata["rerank_score"]` and
`metadata["parent_chunk_id"]`; the latter is `none` when absent, or
carries the result of `int(...)` (`some none` when the conversion raises).
The MySQL parent store is the `fetch` collaborator; `ensure_schema_if_possible`
is the `schemaOk` flag. -/

structure PDoc where
  pageContent : String := ""
  rerank_score : Option ℚ := none
  parent_chunk_id : Option (Option ℤ) := none
  dtype : String := ""
  doc_id : Option ℤ := none
  page_num : Option ℤ := none
deriving DecidableEq, Inhabited

structure PChunk where
  parent_chunk_id : ℤ
  content : String
  doc_id : ℤ
  page_num : Option ℤ
deriving DecidableEq

/-- Accumulation loop of `restore_parents`: max-aggregate scores per parent
id (first value seen starts the entry, `parent_order` records first-seen
order), children without a resolvable parent id go to `fallback_docs`. -/
def parentScan :
    List PDoc → List (ℤ × ℚ) × List ℤ × List PDoc →
    List (ℤ × ℚ) × List ℤ × List PDoc
  | [], st => st
  | d :: rest, (pscores, porder, fallback) =>
    let score := d.rerank_score.getD 0
    match d.parent_chunk_id with
    | none => parentScan rest (pscores, porder, fallback ++ [d])
    | some none => parentScan rest (pscores, porder, fallback ++ [d])
    | some (some pid) =>
      if dmem pscores pid then
        parentScan rest (dset pscores pid (max (dgetD pscores pid 0) score), porder, fallback)
      else
        parentScan rest (dset pscores pid score, porder ++ [pid], fallback)

/-- The parent-id list handed to `fetch_parent_chunks`: first-seen order
truncated to `k` before fetching. -/
def parentFetchArg (docs : List PDoc) (k : ℕ) : List ℤ :=
  (parentScan docs ([], [], [])).2.1.take k

def restoreParents (schemaOk : Bool)
    (fetch : List ℤ → Except String (List PChunk))
    (docs : List PDoc) (k : ℕ) : List PDoc :=
  if docs = [] then []
  else if !schemaOk then docs.take k
  else
    let scan := parentScan docs ([], [], [])
    let pscores := scan.1
    let fallback := scan.2.2
    let out :=
      if scan.2.1 = [] then fallback
      else
        match fetch (parentFetchArg docs k) with
        | Except.error _ => fallback
        | Except.ok parents =>
          fallback ++ parents.map
            (fun p =>
              { pageContent := p.content
                dtype := "doc_parent"
                doc_id := some p.doc_id
                parent_chunk_id := some (some p.parent_chunk_id)
                page_num := p.page_num
                rerank_score := dget? pscores p.parent_chunk_id })
    (sortDescBy (fun d => d.rerank_score.getD 0) out).take k

/-! ## Self-correction loop (src/app/runtime/graph/graph.py and
src/app/skills/common/grader.py)

The grader collaborator call (`invoke_structured`) catches every exception
internally and returns the `fallback_data` result (`verdict=rewrite`), so a
grader invocation is an arbitrary `Except`: `ok r` for any structured
result, `error` for a raising/malformed call. -/

inductive Verdict where
  | accept
  | rewrite
  | search
deriving DecidableEq

structure GraderResult where
  verdict : Verdict
  rewrite_instructions : Option String := none
  search_query : Option String := none

/-- Model of `invoke_structured` with the grader schema: any internal failure
collapses to the fallback result with `verdict=rewrite`. -/
def invokeStructuredGrader (behavior : Except String GraderResult) :
    GraderResult :=
  match behavior with
  | Except.ok r => r
  | Except.error _ =>
    { verdict := Verdict.rewrite
      rewrite_instructions := some "retry with the given context" }

/-- Translation of `grader_node`: run the structured grader call and increment
`trace["self_correction_attempts"]` iff the verdict is not `accept`.
Returns the produced grade and the updated counter. -/
def graderNodeStep (behavior : Except String GraderResult) (attempts : ℕ) :
    GraderResult × ℕ :=
  let r := invokeStructuredGrader behavior
  (r, if r.verdict = Verdict.accept then attempts else attempts + 1)

/-- Translation of `_grader_key`: force `accept` once `attempts ≥ max_attempts`, else route
by the grade's verdict. -/
def graderKey (maxAttempts attempts : ℕ) (verdict : Verdict) : Verdict :=
  if maxAttempts ≤ attempts then Verdict.accept
  else
    match verdict with
    | Verdict.search => Verdict.search
    | Verdict.rewrite => Verdict.rewrite
    | Verdict.accept => Verdict.accept

/-- The grade/route loop of the compiled graph: each iteration runs
`grader_node` on the next collaborator behavior and routes with
`_grader_key`; a non-`accept` route loops back (through web-search /
assemble / generate, none of which touch the counter or the grade).
`fuel` bounds the modelled unrolling: the result is `some finalAttempts`
when the `accept` route (the terminal `END` edge) is reached within `fuel`
iterations — the final counter value equals the number of grader cycles
whose verdict was non-accept. -/
def runSelfCorrection (maxAttempts : ℕ)
    (behavior : ℕ → Except String GraderResult) :
    ℕ → ℕ → ℕ → Option ℕ
  | 0, _, _ => none
  | fuel + 1, i, attempts =>
    let p := graderNodeStep (behavior i) attempts
    match graderKey maxAttempts p.2 p.1.verdict with
    | Verdict.accept => some p.2
    | _ => runSelfCorrection maxAttempts behavior fuel (i + 1) p.2

/-! ## Supporting lemmas on the dict and sort models -/

theorem dget?_dset_self {α β : Type} [DecidableEq α] (d : List (α × β))
    (k : α) (v : β) : dget? (dset d k v) k = some v := by
  induction d with
  | nil => simp [dset, dget?]
  | cons hd tl ih =>
    by_cases h : hd.1 = k
    · simp [dset, dget?, h]
    · simp [dset, dget?, h, ih]

theorem dget?_dset_ne {α β : Type} [DecidableEq α] (d : List (α × β))
    (k k2 : α) (v : β) (h : k ≠ k2) :
    dget? (dset d k v) k2 = dget? d k2 := by
  induction d with
  | nil => simp [dset, dget?, h]
  | cons hd tl ih =>
    by_cases h2 : hd.1 = k
    · simp [dset, dget?, h2, h]
    · simp [dset, dget?, h2, ih]

theorem dgetD_dset_self {α β : Type} [DecidableEq α] (d : List (α × β))
    (k : α) (v dflt : β) : dgetD (dset d k v) k dflt = v := by
  simp [dgetD, dget?_dset_self]

theorem dgetD_dset_ne {α β : Type} [DecidableEq α] (d : List (α × β))
    (k k2 : α) (v : β) (dflt : β) (h : k ≠ k2) :
    dgetD (dset d k v) k2 dflt = dgetD d k2 dflt := by
  simp [dgetD, dget?_dset_ne _ _ _ _ h]

theorem insertDescBy_perm {α : Type} (key : α → ℚ) (x : α) (l : List α) :
    (insertDescBy key x l).Perm (x :: l) := by
  induction l with
  | nil => simp [insertDescBy]
  | cons y ys ih =>
    by_cases h : key y < key x
    · simp [insertDescBy, h]
    · simp only [insertDescBy, if_neg h]
      exact ((ih.cons y).trans (List.Perm.swap x y ys))

theorem sortDescBy_perm {α : Type} (key : α → ℚ) (l : List α) :
    (sortDescBy key l).Perm l := by
  induction l with
  | nil => simp [sortDescBy]
  | cons x xs ih =>
    exact (insertDescBy_perm key x (sortDescBy key xs)).trans (ih.cons x)

theorem insertDescBy_pairwise {α : Type} (key : α → ℚ) (x : α) (l : List α)
    (h : l.Pairwise (fun a b => key b ≤ key a)) :
    (insertDescBy key x l).Pairwise (fun a b => key b ≤ key a) := by
  induction l with
  | nil => simp [insertDescBy]
  | cons y ys ih =>
    rcases List.pairwise_cons.mp h with ⟨hy, hys⟩
    by_cases hlt : key y < key x
    · simp only [insertDescBy, if_pos hlt]
      refine List.pairwise_cons.mpr ⟨?_, h⟩
      intro b hb
      rcases List.mem_cons.mp hb with hb | hb
      · exact le_of_lt (hb ▸ hlt)
      · exact le_trans (hy b hb) (le_of_lt hlt)
    · simp only [insertDescBy, if_neg hlt]
      refine List.pairwise_cons.mpr ⟨?_, ih hys⟩
      intro b hb
      have hb2 := (insertDescBy_perm key x ys).mem_iff.mp hb
      rcases List.mem_cons.mp hb2 with hb3 | hb3
      · exact hb3 ▸ (not_lt.mp hlt)
      · exact hy b hb3

theorem sortDescBy_pairwise {α : Type} (key : α → ℚ) (l : List α) :
    (sortDescBy key l).Pairwise (fun a b => key b ≤ key a) := by
  induction l with
  | nil => simp [sortDescBy]
  | cons x xs ih => exact insertDescBy_pairwise key x _ ih

theorem sortDescBy_length {α : Type} (key : α → ℚ) (l : List α) :
    (sortDescBy key l).length = l.length :=
  (sortDescBy_perm key l).length_eq

theorem enumFrom_triple_fst (docs : List String) :
    ∀ i, ((List.enumFrom i docs).map (fun p => (p.2, (0 : ℚ), p.1))).map
      (fun t => t.1) = docs := by
  induction docs with
  | nil => intro i; rfl
  | cons d rest ih => intro i; simpa [List.enumFrom] using ih (i + 1)

theorem enumFrom_triple_score (docs : List String) :
    ∀ i, ∀ t ∈ (List.enumFrom i docs).map (fun p => (p.2, (0 : ℚ), p.1)),
      t.2.1 = 0 := by
  induction docs with
  | nil => intro i t ht; simp [List.enumFrom] at ht
  | cons d rest ih =>
    intro i t ht
    rcases List.mem_cons.mp ht with h | h
    · rw [h]
    · exact ih (i + 1) t h

theorem enumFrom_triple_idx (docs : List String) :
    ∀ i, ((List.enumFrom i docs).map (fun p => (p.2, (0 : ℚ), p.1))).map
      (fun t => t.2.2) = List.range' i docs.length := by
  induction docs with
  | nil => intro i; rfl
  | cons d rest ih =>
    intro i
    simpa [List.enumFrom, List.range'] using ih (i + 1)

theorem neutralRank_content (docs : List String) (k : ℕ) :
    (neutralRank docs k).map (fun t => t.1) = docs.take k := by
  unfold neutralRank
  rw [List.map_take]
  exact congrArg (List.take k) (enumFrom_triple_fst docs 0)

theorem neutralRank_scores (docs : List String) (k : ℕ) :
    ∀ t ∈ neutralRank docs k, t.2.1 = 0 := by
  intro t ht
  unfold neutralRank at ht
  exact enumFrom_triple_score docs 0 t (List.mem_of_mem_take ht)

theorem neutralRank_indices (docs : List String) (k : ℕ) :
    (neutralRank docs k).map (fun t => t.2.2) =
      (List.range docs.length).take k := by
  unfold neutralRank
  rw [List.map_take]
  rw [List.range_eq_range']
  exact congrArg (List.take k) (enumFrom_triple_idx docs 0)

/-- Claim C4: if the reranker's backing model is unconfigured, or the model
collaborator raises during scoring, `rerank(query, docs, top_k)` returns
(without raising) exactly the first `top_k` documents in their original
input order, each with score 0.0 and its original index. -/
theorem c4_reranker_degradation (disabled : Bool) (load : Except String Unit)
    (scoreBatch : String → List String → Except String (List ℚ))
    (qp dp q : String) (docs : List String) (k : ℕ)
    (hne : docs ≠ [])
    (h : disabled = true ∨
      (load = Except.ok () ∧
        ∃ e, scoreBatch (qp ++ q) (docs.map (fun d => dp ++ d)) =
          Except.error e)) :
    rerank disabled load scoreBatch qp dp q docs k =
        Except.ok (neutralRank docs k)
      ∧ (neutralRank docs k).map (fun t => t.1) = docs.take k
      ∧ (∀ t ∈ neutralRank docs k, t.2.1 = 0)
      ∧ (neutralRank docs k).map (fun t => t.2.2) =
          (List.range docs.length).take k := by
  refine ⟨?_, neutralRank_content docs k, neutralRank_scores docs k,
    neutralRank_indices docs k⟩
  rcases h with h | ⟨hload, e, herr⟩
  · simp [rerank, hne, h]
  · simp [rerank, hne, hload, herr]

/-- Witness for C4 at a concrete raising collaborator. -/
theorem c4_reranker_degradation_witness :
    rerank false (Except.ok ())
        (fun _ _ => Except.error "model scoring failed") "" "" "q"
        ["alpha", "beta", "gamma"] 2 =
      Except.ok [("alpha", 0, 0), ("beta", 0, 1)] := by
  have h := c4_reranker_degradation false (Except.ok ())
    (fun _ _ => Except.error "model scoring failed") "" "" "q"
    ["alpha", "beta", "gamma"] 2 (by simp)
    (Or.inr ⟨rfl, "model scoring failed", rfl⟩)
  rw [h.1]
  rfl

theorem runSelfCorrection_bound (maxA : ℕ)
    (beh : ℕ → Except String GraderResult) :
    ∀ fuel i att, att < maxA → maxA - att ≤ fuel →
      ∃ c, runSelfCorrection maxA beh fuel i att = some c ∧ c ≤ maxA := by
  intro fuel
  induction fuel with
  | zero =>
    intro i att hlt hfuel
    omega
  | succ fuel ih =>
    intro i att hlt hfuel
    simp only [runSelfCorrection]
    rcases hv : (invokeStructuredGrader (beh i)).verdict with _ | _ | _
    · refine ⟨att, ?_, le_of_lt hlt⟩
      simp [graderNodeStep, hv, graderKey]
    · simp only [graderNodeStep, hv]
      simp only [reduceCtorEq, if_false]
      by_cases hend : maxA ≤ att + 1
      · refine ⟨att + 1, ?_, by omega⟩
        simp [graderKey, if_pos hend]
      · have hroute : graderKey maxA (att + 1) Verdict.rewrite = Verdict.rewrite := by
          simp [graderKey, if_neg hend]
        rw [hroute]
        exact ih (i + 1) (att + 1) (by omega) (by omega)
    · simp only [graderNodeStep, hv]
      simp only [reduceCtorEq, if_false]
      by_cases hend : maxA ≤ att + 1
      · refine ⟨att + 1, ?_, by omega⟩
        simp [graderKey, if_pos hend]
      · have hroute : graderKey maxA (att + 1) Verdict.search = Verdict.search := by
          simp [graderKey, if_neg hend]
        rw [hroute]
        exact ih (i + 1) (att + 1) (by omega) (by omega)

theorem runSelfCorrection_exact (maxA : ℕ)
    (beh : ℕ → Except String GraderResult)
    (hall : ∀ j, (invokeStructuredGrader (beh j)).verdict = Verdict.rewrite) :
    ∀ fuel i att, att < maxA → maxA - att ≤ fuel →
      runSelfCorrection maxA beh fuel i att = some maxA := by
  intro fuel
  induction fuel with
  | zero =>
    intro i att hlt hfuel
    omega
  | succ fuel ih =>
    intro i att hlt hfuel
    simp only [runSelfCorrection, graderNodeStep, hall i]
    simp only [reduceCtorEq, if_false]
    by_cases hend : maxA ≤ att + 1
    · have : att + 1 = maxA := by omega
      simp [graderKey, if_pos hend, this]
    · have hroute : graderKey maxA (att + 1) Verdict.rewrite = Verdict.rewrite := by
        simp [graderKey, if_neg hend]
      rw [hroute]
      exact ih (i + 1) (att + 1) (by omega) (by omega)

/-- Claim C1 (amended): for every configured `max_attempts ≥ 1` and every
grader collaborator behavior (including calls that raise, which
`invoke_structured` converts to the `verdict=rewrite` fallback): the
attempt counter is incremented on every non-accept grader verdict; the
post-grade routing is forced to `accept` once the counter has reached
`max_attempts`; the loop reaches the terminal Accept route with at most
`max_attempts` non-accept grader cycles (the final counter value); and with
a grader whose effective verdict is always `rewrite` it terminates with
exactly `max_attempts` non-accept cycles.  (For `max_attempts = 0` the
single mandatory grade still yields one non-accept cycle before the forced
accept — see the counterexample.) -/
theorem c1_bounded_self_correction (maxA : ℕ)
    (beh : ℕ → Except String GraderResult) (hmax : 1 ≤ maxA) :
    (∀ (b : Except String GraderResult) (a : ℕ),
        (invokeStructuredGrader b).verdict ≠ Verdict.accept →
          (graderNodeStep b a).2 = a + 1)
      ∧ (∀ (a : ℕ) (v : Verdict), maxA ≤ a → graderKey maxA a v = Verdict.accept)
      ∧ (∃ c, runSelfCorrection maxA beh (maxA + 1) 0 0 = some c ∧ c ≤ maxA)
      ∧ ((∀ j, (invokeStructuredGrader (beh j)).verdict = Verdict.rewrite) →
          runSelfCorrection maxA beh (maxA + 1) 0 0 = some maxA) := by
  refine ⟨?_, ?_, ?_, ?_⟩
  · intro b a hb
    simp [graderNodeStep, hb]
  · intro a v ha
    simp [graderKey, if_pos ha]
  · exact runSelfCorrection_bound maxA beh (maxA + 1) 0 0 (by omega) (by omega)
  · intro hall
    exact runSelfCorrection_exact maxA beh hall (maxA + 1) 0 0 (by omega) (by omega)

/-- A grader collaborator that always answers `verdict=rewrite`. -/
def alwaysRewriteGrader : ℕ → Except String GraderResult :=
  fun _ => Except.ok { verdict := Verdict.rewrite }

/-- Counterexample to claim C1 as stated: with a configured
`max_attempts = 0` (reachable, since `_get_max_self_correction_attempts`
clamps the configured value with `max(0, int(val))`) and an
always-rewrite grader, the run still reaches Accept only after one
non-accept grader cycle — one more than `max_attempts`: the grader runs
before the forced-accept routing can apply. -/
theorem c1_counterexample :
    runSelfCorrection 0 alwaysRewriteGrader 1 0 0 = some 1 ∧ ¬(1 ≤ 0) := by
  exact ⟨rfl, by omega⟩

/-- Witness for C1 at `max_attempts = 2` with the always-rewrite grader:
termination with exactly 2 non-accept cycles. -/
theorem c1_bounded_self_correction_witness :
    runSelfCorrection 2 (fun _ => Except.ok { verdict := Verdict.rewrite })
      3 0 0 = some 2 := by
  exact (c1_bounded_self_correction 2
    (fun _ => Except.ok { verdict := Verdict.rewrite }) (by omega)).2.2.2
    (fun _ => rfl)

theorem search_cached (r : BM25Retriever) (q : String) (k : ℕ)
    (res : List (RDoc × ℚ))
    (hc : dget? r.cache (q ++ ":" ++ toString k) = some res) :
    r.search q k = (res, r) := by
  simp [BM25Retriever.search, hc]

/-- The result-assembly fold of a cache-missing `search`, named for reuse
in the cache lemmas. -/
def searchComputedFold (r : BM25Retriever) (q : String) (k : ℕ) :
    List RDoc × List (RDoc × ℚ) :=
  let scores := (candidateDocs r.index (r.index.tokenizer.tokenize q)).map
    (fun did => (did, BM25Scorer.score { k1 := r.k1, b := r.b } r.index did q))
  ((sortDescBy (fun p => p.2) scores).take k).foldl collectResults
    (r.documents, [])

theorem search_miss (r : BM25Retriever) (q : String) (k : ℕ)
    (hc : dget? r.cache (q ++ ":" ++ toString k) = none)
    (hind : r.indexed = true)
    (hq : r.index.tokenizer.tokenize q ≠ []) :
    ∃ res dd, r.search q k =
      (res,
        { r with
          documents := dd
          cache := dset (if r.cacheSize ≤ r.cache.length then [] else r.cache)
            (q ++ ":" ++ toString k) res }) := by
  refine ⟨(searchComputedFold r q k).2, (searchComputedFold r q k).1, ?_⟩
  simp only [BM25Retriever.search, hc, hind, Bool.not_true, Bool.false_eq_true,
    if_false, if_neg hq, searchComputedFold]

/-- Claim C6: two consecutive `search(q, k)` calls with no intervening
`add_documents` return identical results (the second is served from the
`(query, top_k)`-keyed cache, whose string key `f"{query}:{top_k}"` is
injective in the pair); and when the cache already holds `cache_size`
entries, inserting a new entry first clears the whole cache, so the
post-call cache is exactly the singleton holding the new entry. -/
theorem c6_cache_correctness (r : BM25Retriever) (q : String) (k : ℕ) :
    (((r.search q k).2.search q k).1 = (r.search q k).1)
      ∧ (dget? r.cache (q ++ ":" ++ toString k) = none →
          r.indexed = true →
          r.index.tokenizer.tokenize q ≠ [] →
          r.cacheSize ≤ r.cache.length →
          (r.search q k).2.cache =
            [(q ++ ":" ++ toString k, (r.search q k).1)]) := by
  constructor
  · rcases hc : dget? r.cache (q ++ ":" ++ toString k) with _ | res
    · by_cases hind : r.indexed = true
      · by_cases hq : r.index.tokenizer.tokenize q = []
        · simp [BM25Retriever.search, hc, hind, hq]
        · obtain ⟨res, dd, heq⟩ := search_miss r q k hc hind hq
          rw [heq]
          have hc2 : dget?
              (dset (if r.cacheSize ≤ r.cache.length then [] else r.cache)
                (q ++ ":" ++ toString k) res) (q ++ ":" ++ toString k) =
              some res := dget?_dset_self _ _ _
          rw [search_cached _ q k res hc2]
      · have hind2 : r.indexed = false := by
          revert hind; cases r.indexed <;> simp
        simp [BM25Retriever.search, hc, hind2]
    · rw [search_cached r q k res hc]
      rw [search_cached r q k res hc]
  · intro hc hind hq hfull
    by_cases hqe : r.index.tokenizer.tokenize q = []
    · exact absurd hqe hq
    · obtain ⟨res, dd, heq⟩ := search_miss r q k hc hind hqe
      rw [heq]
      simp [if_pos hfull, dset]

/-- Witness for C6: a concrete retriever whose cache is full (capacity 1,
one stale entry); searching inserts into a freshly cleared cache and a
repeated search returns the identical result. -/
theorem c6_cache_correctness_witness :
    (let base : BM25Retriever :=
      (BM25Retriever.mkInit jiebaCutNonHan (3/2) (3/4) 1).add_documents
        (fun x => x - 1) [{ pageContent := "hello world" }];
    let r : BM25Retriever := { base with cache := [("stale:1", [])] };
    (((r.search "hello" 2).2.search "hello" 2).1 = (r.search "hello" 2).1)
      ∧ (r.search "hello" 2).2.cache =
          [("hello" ++ ":" ++ toString 2, (r.search "hello" 2).1)]) := by
  refine ⟨(c6_cache_correctness _ "hello" 2).1, ?_⟩
  exact (c6_cache_correctness _ "hello" 2).2 (by decide) (by decide)
    (by decide) (by decide)

theorem dget?_mem {α β : Type} [DecidableEq α] :
    ∀ (d : List (α × β)) (k : α) (v : β), dget? d k = some v → (k, v) ∈ d
  | [], k, v, h => by simp [dget?] at h
  | (x, y) :: tl, k, v, h => by
    by_cases h2 : x = k
    · simp only [dget?, if_pos h2] at h
      subst h2
      rw [← Option.some_inj.mp h]
      exact List.mem_cons_self _ _
    · simp only [dget?, if_neg h2] at h
      exact List.mem_cons_of_mem _ (dget?_mem tl k v h)

theorem mem_dset {α β : Type} [DecidableEq α] :
    ∀ (d : List (α × β)) (k a : α) (v b : β),
      (a, b) ∈ dset d k v → (a, b) ∈ d ∨ (a = k ∧ b = v)
  | [], k, a, v, b, h => by
    simp [dset] at h
    exact Or.inr h
  | (x, y) :: tl, k, a, v, b, h => by
    by_cases h2 : x = k
    · simp only [dset, if_pos h2] at h
      rcases List.mem_cons.mp h with h3 | h3
      · cases h3
        exact Or.inr ⟨h2, rfl⟩
      · exact Or.inl (List.mem_cons_of_mem _ h3)
    · simp only [dset, if_neg h2] at h
      rcases List.mem_cons.mp h with h3 | h3
      · exact Or.inl (List.mem_cons.mpr (Or.inl h3))
      · rcases mem_dset tl k a v b h3 with h4 | h4
        · exact Or.inl (List.mem_cons_of_mem _ h4)
        · exact Or.inr h4

theorem dmem_dset_self {α β : Type} [DecidableEq α] (d : List (α × β))
    (k : α) (v : β) : dmem (dset d k v) k = true := by
  simp [dmem, dget?_dset_self]

theorem dmem_dset_ne {α β : Type} [DecidableEq α] (d : List (α × β))
    (k k2 : α) (v : β) (h : k ≠ k2) : dmem (dset d k v) k2 = dmem d k2 := by
  simp [dmem, dget?_dset_ne _ _ _ _ h]

/-- The key list of a dict model. -/
def dkeys {α β : Type} (d : List (α × β)) : List α := d.map Prod.fst

theorem dkeys_nil {α β : Type} : dkeys ([] : List (α × β)) = [] := rfl

theorem dkeys_cons {α β : Type} (p : α × β) (tl : List (α × β)) :
    dkeys (p :: tl) = p.1 :: dkeys tl := rfl

theorem dmem_iff_mem_dkeys {α β : Type} [DecidableEq α] :
    ∀ (d : List (α × β)) (k : α), dmem d k = true ↔ k ∈ dkeys d
  | [], k => by simp [dmem, dget?, dkeys]
  | (x, y) :: tl, k => by
    by_cases h2 : x = k
    · simp [dmem, dget?, dkeys, h2]
    · have ih := dmem_iff_mem_dkeys tl k
      simp only [dmem, dget?, if_neg h2, dkeys_cons, List.mem_cons]
      constructor
      · intro h
        exact Or.inr (ih.mp h)
      · intro h
        rcases h with h | h
        · exact absurd h.symm h2
        · exact ih.mpr h

theorem dkeys_dset {α β : Type} [DecidableEq α] :
    ∀ (d : List (α × β)) (k : α) (v : β),
      dkeys (dset d k v) = if dmem d k then dkeys d else dkeys d ++ [k]
  | [], k, v => by simp [dset, dkeys, dmem, dget?]
  | (x, y) :: tl, k, v => by
    have ih := dkeys_dset tl k v
    by_cases h2 : x = k
    · simp [dset, dkeys_cons, dmem, dget?, h2]
    · by_cases hm : dmem tl k = true
      · simp only [dmem] at hm
        simp [dset, if_neg h2, dkeys_cons, ih, dmem, dget?, h2, hm]
      · simp only [dmem, Bool.not_eq_true] at hm
        simp [dset, if_neg h2, dkeys_cons, ih, dmem, dget?, h2, hm]

theorem nodup_dkeys_dset {α β : Type} [DecidableEq α] (d : List (α × β))
    (k : α) (v : β) (h : (dkeys d).Nodup) : (dkeys (dset d k v)).Nodup := by
  rw [dkeys_dset]
  by_cases hm : dmem d k
  · simp [hm, h]
  · simp only [hm, if_false, Bool.false_eq_true]
    rw [List.nodup_append]
    refine ⟨h, List.nodup_singleton k, ?_⟩
    intro a ha hb
    rw [List.mem_singleton] at hb
    subst hb
    exact hm ((dmem_iff_mem_dkeys d a).mpr ha)

theorem dget?_of_mem_nodup {α β : Type} [DecidableEq α] :
    ∀ (d : List (α × β)) (k : α) (v : β),
      (k, v) ∈ d → (dkeys d).Nodup → dget? d k = some v
  | [], k, v, hmem, _ => by simp at hmem
  | (x, y) :: tl, k, v, hmem, hnd => by
    rw [dkeys_cons] at hnd
    rcases List.nodup_cons.mp hnd with ⟨hx, htl⟩
    rcases List.mem_cons.mp hmem with h | h
    · cases h
      simp [dget?]
    · have hk : k ∈ dkeys tl := by
        rw [← dmem_iff_mem_dkeys]
        simp [dmem, dget?_of_mem_nodup tl k v h htl]
      have hne : x ≠ k := fun he => hx (he ▸ hk)
      simp only [dget?, if_neg hne]
      exact dget?_of_mem_nodup tl k v h htl

theorem rrfAddList_scores (rrf_k : ℕ) (name : String) (weight : ℚ)
    (key : DocKey) :
    ∀ (docs : List FDoc) (rank : ℕ) (st : RrfState),
      dgetD (rrfAddList rrf_k name weight rank docs st).scores key 0 =
        dgetD st.scores key 0 + rrfListScoreSpec rrf_k weight key rank docs
  | [], rank, st => by simp [rrfAddList, rrfListScoreSpec]
  | d :: rest, rank, st => by
    simp only [rrfAddList, rrfListScoreSpec]
    rw [rrfAddList_scores rrf_k name weight key rest (rank + 1)]
    by_cases h : stableDocKey d = key
    · subst h
      rw [dgetD_dset_self]
      simp only [if_true]
      ring
    · rw [dgetD_dset_ne _ _ _ _ _ h, if_neg h]
      ring

theorem rrfScan_foldl_scores (rrf_k : ℕ) (key : DocKey) :
    ∀ (lists : List (String × List FDoc × ℚ)) (st : RrfState),
      dgetD ((lists.foldl (fun st l => rrfAddList rrf_k l.1 l.2.2 1 l.2.1 st)
        st).scores) key 0 =
        dgetD st.scores key 0 +
          (lists.map (fun l => rrfListScoreSpec rrf_k l.2.2 key 1 l.2.1)).sum
  | [], st => by simp
  | l :: rest, st => by
    simp only [List.foldl_cons, List.map_cons, List.sum_cons]
    rw [rrfScan_foldl_scores rrf_k key rest]
    rw [rrfAddList_scores]
    ring

theorem rrfScan_scores (ranked_lists : List (String × List FDoc × ℚ))
    (rrf_k : ℕ) (key : DocKey) :
    dgetD (rrfScan ranked_lists rrf_k).scores key 0 =
      rrfScoreSpec ranked_lists rrf_k key := by
  unfold rrfScan rrfScoreSpec
  rw [rrfScan_foldl_scores]
  simp [dgetD, dget?]

/-- Invariant: `scores` keys stay duplicate-free and `best` holds, for every
key of `scores`, a document whose stable key is that key. -/
def RrfInv (st : RrfState) : Prop :=
  (dkeys st.scores).Nodup
    ∧ (∀ kk dd, (kk, dd) ∈ st.best → stableDocKey dd = kk)
    ∧ (∀ kk, dmem st.scores kk = true → dmem st.best kk = true)

theorem rrfAddList_inv (rrf_k : ℕ) (name : String) (weight : ℚ) :
    ∀ (docs : List FDoc) (rank : ℕ) (st : RrfState), RrfInv st →
      RrfInv (rrfAddList rrf_k name weight rank docs st)
  | [], rank, st, h => h
  | d :: rest, rank, st, h => by
    simp only [rrfAddList]
    refine rrfAddList_inv rrf_k name weight rest (rank + 1) _ ?_
    rcases h with ⟨hnd, hbest, hcov⟩
    refine ⟨nodup_dkeys_dset _ _ _ hnd, ?_, ?_⟩
    · intro kk dd hmem
      by_cases hb : dmem st.best (stableDocKey d) = true
      · rw [if_pos hb] at hmem
        exact hbest kk dd hmem
      · rw [if_neg hb] at hmem
        rcases mem_dset _ _ _ _ _ hmem with h4 | h4
        · exact hbest kk dd h4
        · rw [h4.2, h4.1]
    · intro kk hkk
      by_cases hk : stableDocKey d = kk
      · subst hk
        by_cases hb : dmem st.best (stableDocKey d) = true
        · rw [if_pos hb]
          exact hb
        · rw [if_neg hb]
          exact dmem_dset_self _ _ _
      · rw [dmem_dset_ne _ _ _ _ hk] at hkk
        by_cases hb : dmem st.best (stableDocKey d) = true
        · rw [if_pos hb]
          exact hcov kk hkk
        · rw [if_neg hb]
          rw [dmem_dset_ne _ _ _ _ hk]
          exact hcov kk hkk

theorem rrfScan_inv (ranked_lists : List (String × List FDoc × ℚ))
    (rrf_k : ℕ) : RrfInv (rrfScan ranked_lists rrf_k) := by
  unfold rrfScan
  have base : RrfInv {} := by
    refine ⟨List.nodup_nil, ?_, ?_⟩
    · intro kk dd hmem
      simp at hmem
    · intro kk hkk
      simp [dmem, dget?] at hkk
  revert base
  generalize ({} : RrfState) = st
  intro base
  induction ranked_lists generalizing st with
  | nil => exact base
  | cons l rest ih =>
    exact ih _ (rrfAddList_inv rrf_k l.1 l.2.2 l.2.1 1 st base)

/-- The stable key is insensitive to the enrichment fields. -/
theorem stableDocKey_enrich (d : FDoc) (s : Option ℚ)
    (rks : List (String × ℕ)) :
    stableDocKey { d with retrieval_rrf_score := s, retrieval_ranks := rks } =
      stableDocKey d := rfl

/-- Claim C3: RRF fusion assigns each stable key a fused score equal to the
sum, over every (list, 1-based rank) at which the key appears, of
`weight * 1/(rrf_k + rank)`; each emitted candidate carries exactly that
fused score for its stable key; the output is ordered by descending fused
score and truncated to `top_n`; and in particular a document at rank 1 in
two lists of equal weight `w` scores `2w/(rrf_k+1)` while a document at
rank 1 in a single list scores `w/(rrf_k+1)`. -/
theorem c3_rrf_fusion (ranked_lists : List (String × List FDoc × ℚ))
    (rrf_k : ℕ) (top_n : ℕ) :
    (∀ key, dgetD (rrfScan ranked_lists rrf_k).scores key 0 =
        rrfScoreSpec ranked_lists rrf_k key)
      ∧ (∀ d ∈ rrfFuse ranked_lists rrf_k top_n,
          d.retrieval_rrf_score =
            some (rrfScoreSpec ranked_lists rrf_k (stableDocKey d)))
      ∧ (rrfFuse ranked_lists rrf_k top_n).length ≤ top_n
      ∧ ((rrfFuse ranked_lists rrf_k top_n).map
          (fun d => d.retrieval_rrf_score.getD 0)).Pairwise (fun a b => b ≤ a)
      ∧ (∀ (d : FDoc) (nA nB : String) (w : ℚ),
          dgetD (rrfScan [(nA, [d], w), (nB, [d], w)] rrf_k).scores
              (stableDocKey d) 0 = 2 * w / ((rrf_k : ℚ) + 1))
      ∧ (∀ (d : FDoc) (nA : String) (w : ℚ),
          dgetD (rrfScan [(nA, [d], w)] rrf_k).scores (stableDocKey d) 0 =
            w / ((rrf_k : ℚ) + 1)) := by
  have hk1 : ((rrf_k : ℚ) + 1) ≠ 0 := by positivity
  obtain ⟨hnd, hbest, hcov⟩ := rrfScan_inv ranked_lists rrf_k
  refine ⟨rrfScan_scores ranked_lists rrf_k, ?_, ?_, ?_, ?_, ?_⟩
  · intro d hd
    unfold rrfFuse at hd
    rcases List.mem_map.mp hd with ⟨e, he, hde⟩
    have hes : e ∈ (rrfScan ranked_lists rrf_k).scores :=
      (sortDescBy_perm _ _).mem_iff.mp
        (List.mem_of_mem_take he)
    have hval : dget? (rrfScan ranked_lists rrf_k).scores e.1 = some e.2 :=
      dget?_of_mem_nodup _ _ _ hes hnd
    have hsc : e.2 = rrfScoreSpec ranked_lists rrf_k e.1 := by
      have := rrfScan_scores ranked_lists rrf_k e.1
      rw [dgetD, hval] at this
      exact this
    have hbm : dmem (rrfScan ranked_lists rrf_k).best e.1 = true := by
      apply hcov
      simp [dmem, hval]
    rcases Option.isSome_iff_exists.mp hbm with ⟨dd, hdd⟩
    have hkey : stableDocKey dd = e.1 := hbest e.1 dd (dget?_mem _ _ _ hdd)
    rw [← hde]
    have hgd : dgetD (rrfScan ranked_lists rrf_k).best e.1 {} = dd := by
      simp [dgetD, hdd]
    rw [hgd]
    rw [show (stableDocKey
        { dd with
          retrieval_rrf_score := some e.2
          retrieval_ranks := ranked_lists.foldl
            (fun acc l =>
              match dget? (dgetD (rrfScan ranked_lists rrf_k).ranks e.1 []) l.1 with
              | some rk => dset acc l.1 rk
              | none => acc)
            dd.retrieval_ranks }) = stableDocKey dd from rfl]
    rw [hkey, ← hsc]
  · unfold rrfFuse
    rw [List.length_map]
    exact (List.length_take_le _ _)
  · unfold rrfFuse
    rw [List.map_map]
    have hsorted := sortDescBy_pairwise (fun e : DocKey × ℚ => e.2)
      (rrfScan ranked_lists rrf_k).scores
    have htake := hsorted.sublist (List.take_sublist top_n _)
    refine List.Pairwise.map _ ?_ htake
    intro a b h
    simpa using h
  · intro d nA nB w
    rw [rrfScan_scores]
    simp only [rrfScoreSpec, rrfListScoreSpec, List.map_cons, List.map_nil,
      List.sum_cons, List.sum_nil, if_pos rfl]
    push_cast
    field_simp
    ring
  · intro d nA w
    rw [rrfScan_scores]
    simp only [rrfScoreSpec, rrfListScoreSpec, List.map_cons, List.map_nil,
      List.sum_cons, List.sum_nil, if_pos rfl]
    field_simp

theorem getD_zero_mem {α : Type} (l : List α) (d : α) (h : l ≠ []) :
    l.getD 0 d ∈ l := by
  cases l with
  | nil => exact absurd rfl h
  | cons x xs => simp [List.getD]

/-- Witness for C3: a concrete one-list fusion; the emitted candidate
carries exactly the spec-formula fused score of its stable key. -/
theorem c3_rrf_fusion_witness :
    (let L : List (String × List FDoc × ℚ) :=
      [("sparse", [{ pageContent := "A" }], 1/2)];
    let d : FDoc := (rrfFuse L 60 5).getD 0 {};
    d.retrieval_rrf_score = some (rrfScoreSpec L 60 (stableDocKey d))) := by
  have hlen : (rrfFuse [("sparse", [({ pageContent := "A" } : FDoc)], 1/2)]
      60 5).length = 1 := rfl
  refine (c3_rrf_fusion [("sparse", [{ pageContent := "A" }], 1/2)]
    60 5).2.1 _ (getD_zero_mem _ _ ?_)
  intro h
  rw [h] at hlen
  exact absurd hlen (by decide)

/-- The rebuild scenario of claim C2: `add_documents(["hello world"])`
followed by `add_documents(["foo bar"])` on the same retriever (whose
`IndexBuilder` reuses one `InvertedIndex` object across builds). -/
def rebuildScenario (Lg : ℚ → ℚ) : BM25Retriever :=
  ((BM25Retriever.mkInit jiebaCutNonHan (3/2) (3/4) 100).add_documents Lg
    [{ pageContent := "hello world" }]).add_documents Lg
    [{ pageContent := "foo bar" }]

/-- Claim C2 fails on the code (code bug): `InvertedIndex.build` never
resets `term_dict`, `posting_lists`, `df`, `idf` or `doc_lens`, so after a
second `add_documents` the index still contains the pre-rebuild term
`"hello"` (`df["hello"] = 1`, a posting for doc 0), and
`search("hello")` returns the post-rebuild document `"foo bar"` — a
stale-term hit — instead of the empty result the latest corpus determines. -/
theorem c2_rebuild_stale_state (Lg : ℚ → ℚ) :
    (((rebuildScenario Lg).search ("hello") 10).1.map
        (fun p => p.1.pageContent) = ["foo bar"])
      ∧ dget? (rebuildScenario Lg).index.df ("hello") = some 1
      ∧ dmem (rebuildScenario Lg).index.term_dict ("hello") = true
      ∧ (rebuildScenario Lg).index.get_postings ("hello") = [(0, 1)] := by
  exact ⟨rfl, rfl, rfl, rfl⟩

theorem scoreTermContributionChecked_eq (s : BM25Scorer)
    (idx : InvertedIndex) (dl avgdl : ℚ) (did : ℕ) (term : String)
    (havg : avgdl ≠ 0) :
    scoreTermContributionChecked s idx dl avgdl did term =
      some (scoreTermContribution s idx dl avgdl did term) := by
  simp only [scoreTermContributionChecked, scoreTermContribution]
  by_cases hm : dmem idx.term_dict term = true
  · rw [if_pos hm, if_pos hm, if_neg havg]
    by_cases hd : (0:ℚ) < ((tfLookup (idx.get_postings term) did : ℕ) : ℚ) +
        s.k1 * (1 - s.b + s.b * dl / avgdl)
    · rw [if_pos hd, if_pos hd, if_neg (ne_of_gt hd)]
    · rw [if_neg hd, if_neg hd]
  · rw [if_neg hm, if_neg hm]

theorem scoreChecked_foldl (s : BM25Scorer) (idx : InvertedIndex)
    (dl avgdl : ℚ) (did : ℕ) (havg : avgdl ≠ 0) :
    ∀ (terms : List String) (a : ℚ),
      terms.foldl
        (fun acc term =>
          match acc, scoreTermContributionChecked s idx dl avgdl did term with
          | some x, some c => some (x + c)
          | _, _ => none) (some a) =
      some (terms.foldl
        (fun acc term => acc + scoreTermContribution s idx dl avgdl did term) a)
  | [], a => rfl
  | t :: rest, a => by
    simp only [List.foldl_cons, scoreTermContributionChecked_eq s idx dl avgdl
      did t havg]
    exact scoreChecked_foldl s idx dl avgdl did havg rest _

theorem scoreTermContribution_zero_of_tf0 (s : BM25Scorer)
    (idx : InvertedIndex) (dl avgdl : ℚ) (did : ℕ) (term : String)
    (htf : tfLookup (idx.get_postings term) did = 0) :
    scoreTermContribution s idx dl avgdl did term = 0 := by
  simp only [scoreTermContribution, htf]
  by_cases hm : dmem idx.term_dict term = true
  · rw [if_pos hm]
    simp
  · rw [if_neg hm]

theorem foldl_add_zero_terms (f : String → ℚ) :
    ∀ (terms : List String) (a : ℚ), (∀ t ∈ terms, f t = 0) →
      terms.foldl (fun acc term => acc + f term) a = a
  | [], a, _ => rfl
  | t :: rest, a, h => by
    simp only [List.foldl_cons, h t (List.mem_cons_self t rest), add_zero]
    exact foldl_add_zero_terms f rest a (fun u hu => h u (List.mem_cons_of_mem t hu))

/-- Claim C10: `BM25Scorer.score` is total at its public interface: for
every index state, doc id and query string it performs no division by zero
(the division-checked evaluation always succeeds and agrees with the
score); an empty tokenized query yields 0.0; and a doc id absent from the
postings of every query term scores 0.0. -/
theorem c10_scorer_totality (s : BM25Scorer) (idx : InvertedIndex)
    (did : ℕ) (query : String) :
    (s.scoreChecked idx did query = some (s.score idx did query))
      ∧ (idx.tokenizer.tokenize query = [] → s.score idx did query = 0)
      ∧ ((∀ t ∈ idx.tokenizer.tokenize query,
          tfLookup (idx.get_postings t) did = 0) →
            s.score idx did query = 0) := by
  have havg : (if idx.avg_doc_len = 0 then (1:ℚ) else idx.avg_doc_len) ≠ 0 := by
    by_cases h : idx.avg_doc_len = 0
    · rw [if_pos h]
      norm_num
    · rw [if_neg h]
      exact h
  refine ⟨?_, ?_, ?_⟩
  · simp only [BM25Scorer.scoreChecked, BM25Scorer.score]
    by_cases hq : idx.tokenizer.tokenize query = []
    · rw [if_pos hq, if_pos hq]
    · rw [if_neg hq, if_neg hq]
      exact scoreChecked_foldl s idx _ _ did havg _ 0
  · intro hq
    simp only [BM25Scorer.score, if_pos hq]
  · intro htf
    simp only [BM25Scorer.score]
    by_cases hq : idx.tokenizer.tokenize query = []
    · rw [if_pos hq]
    · rw [if_neg hq]
      exact foldl_add_zero_terms _ _ 0
        (fun t ht => scoreTermContribution_zero_of_tf0 s idx _ _ did t (htf t ht))

/-- Witness for C10 on an index built from the empty corpus: checked
evaluation succeeds, the empty query scores 0, and an unseen doc id with an
unseen query scores 0. -/
theorem c10_scorer_totality_witness :
    (let idxE : InvertedIndex :=
      (InvertedIndex.init {}).build (fun x => x - 1) [];
    let s : BM25Scorer := {};
    s.scoreChecked idxE 5 "zz yy" = some (s.score idxE 5 "zz yy")
      ∧ s.score idxE 5 "" = 0
      ∧ s.score idxE 5 "zz yy" = 0) := by
  refine ⟨(c10_scorer_totality {} _ 5 ("zz yy")).1,
    (c10_scorer_totality {} _ 5 ("")).2.1 (by decide),
    (c10_scorer_totality {} _ 5 ("zz yy")).2.2 (by decide)⟩

/-- The C7 modification: the index with the term frequency of `(term,
doc_id)` set to `newTf` (first matching posting entry updated, appended if
absent), every other statistic left exactly as it was.  When `term` is not
in the dictionary nothing changes. -/
def InvertedIndex.withTf (idx : InvertedIndex) (term : String)
    (doc_id newTf : ℕ) : InvertedIndex :=
  { idx with
    posting_lists :=
      match dget? idx.term_dict term with
      | none => idx.posting_lists
      | some tid =>
        idx.posting_lists.set tid
          (dset (idx.posting_lists.getD tid []) doc_id newTf) }

theorem tfLookup_dset :
    ∀ (pl : List (ℕ × ℕ)) (d v : ℕ), tfLookup (dset pl d v) d = v
  | [], d, v => by simp [dset, tfLookup, List.find?]
  | (x, y) :: tl, d, v => by
    by_cases h : x = d
    · simp [dset, tfLookup, List.find?, h]
    · have hne : (x == d) = false := by simp [h]
      simp only [dset, if_neg h, tfLookup, List.find?, hne]
      exact tfLookup_dset tl d v

theorem getD_set_self_lt {α : Type} (l : List α) (i : ℕ) (a d : α)
    (h : i < l.length) : (l.set i a).getD i d = a := by
  rw [List.getD_eq_getElem?_getD, List.getElem?_set_self (by simpa using h)]
  rfl

theorem getD_set_ne {α : Type} (l : List α) (i j : ℕ) (a d : α)
    (h : i ≠ j) : (l.set i a).getD j d = l.getD j d := by
  rw [List.getD_eq_getElem?_getD, List.getElem?_set_ne h,
    ← List.getD_eq_getElem?_getD]

/-- Monotonicity of the per-term BM25 expression in the term frequency. -/
theorem bm25_tf_mono (idf k1 K t1 t2 : ℚ) (hidf : 0 ≤ idf) (hk1 : 0 ≤ k1)
    (hK : 0 ≤ K) (h1 : 0 ≤ t1) (ht : t1 ≤ t2) :
    (if 0 < t1 + K then idf * (t1 * (k1 + 1)) / (t1 + K) else 0) ≤
      (if 0 < t2 + K then idf * (t2 * (k1 + 1)) / (t2 + K) else 0) := by
  by_cases hd1 : 0 < t1 + K
  · have hd2 : 0 < t2 + K := by linarith
    rw [if_pos hd1, if_pos hd2, div_le_div_iff₀ hd1 hd2]
    nlinarith [mul_nonneg (mul_nonneg hidf (by linarith : (0:ℚ) ≤ k1 + 1))
      (mul_nonneg hK (sub_nonneg.mpr ht))]
  · by_cases hd2 : 0 < t2 + K
    · rw [if_neg hd1, if_pos hd2]
      have ht2 : 0 ≤ t2 := le_trans h1 ht
      positivity
    · rw [if_neg hd1, if_neg hd2]

theorem foldl_add_mono (f g : String → ℚ) :
    ∀ (terms : List String) (a1 a2 : ℚ), a1 ≤ a2 →
      (∀ t ∈ terms, f t ≤ g t) →
      terms.foldl (fun acc t => acc + f t) a1 ≤
        terms.foldl (fun acc t => acc + g t) a2
  | [], a1, a2, ha, _ => ha
  | t :: rest, a1, a2, ha, h => by
    simp only [List.foldl_cons]
    exact foldl_add_mono f g rest _ _
      (add_le_add ha (h t (List.mem_cons_self t rest)))
      (fun u hu => h u (List.mem_cons_of_mem t hu))

/-- Claim C7: for a fixed index and query, the BM25 score is monotone in a
document's term frequency for a query term, all other statistics held
equal.  The hypotheses pin the scorer parameters and index statistics to
their reachable ranges (`k1 ≥ 0`, `0 ≤ b ≤ 1`, non-negative average length
and idf, defaults `k1 = 1.5`, `b = 0.75`) and require the term dictionary
not to alias the modified term's posting list (true of any index built from
one corpus). -/
theorem c7_bm25_tf_monotonicity (s : BM25Scorer) (idx : InvertedIndex)
    (term : String) (doc_id newTf : ℕ) (query : String)
    (hk1 : 0 ≤ s.k1) (hb0 : 0 ≤ s.b) (hb1 : s.b ≤ 1)
    (havg : 0 ≤ idx.avg_doc_len)
    (hidf : 0 ≤ dgetD idx.idf term 0)
    (htf : tfLookup (idx.get_postings term) doc_id ≤ newTf)
    (hinj : ∀ t : String, dmem idx.term_dict t = true →
      dget? idx.term_dict t = dget? idx.term_dict term → t = term) :
    s.score idx doc_id query ≤
      s.score (idx.withTf term doc_id newTf) doc_id query := by
  rcases hdt : dget? idx.term_dict term with _ | tid
  · have hsame : idx.withTf term doc_id newTf = idx := by
      simp [InvertedIndex.withTf, hdt]
    rw [hsame]
  · by_cases hrange : tid < idx.posting_lists.length
    · -- the genuinely modified case
      have hpost : (idx.withTf term doc_id newTf).get_postings term =
          dset (idx.get_postings term) doc_id newTf := by
        simp only [InvertedIndex.withTf, InvertedIndex.get_postings, hdt]
        exact getD_set_self_lt _ _ _ _ hrange
      have hpost_ne : ∀ t : String, t ≠ term →
          (idx.withTf term doc_id newTf).get_postings t =
            idx.get_postings t := by
        intro t hne
        simp only [InvertedIndex.withTf, InvertedIndex.get_postings, hdt]
        rcases hdt2 : dget? idx.term_dict t with _ | tid2
        · rfl
        · have htid : tid2 ≠ tid := by
            intro he
            refine hne (hinj t ?_ ?_)
            · simp [dmem, hdt2]
            · rw [hdt2, hdt, he]
          exact getD_set_ne _ _ _ _ _ (Ne.symm htid)
      simp only [BM25Scorer.score]
      by_cases hq : idx.tokenizer.tokenize query = []
      · simp only [InvertedIndex.withTf] at hq ⊢
        rw [if_pos hq, if_pos hq]
      · have hq2 : (idx.withTf term doc_id newTf).tokenizer.tokenize query =
            idx.tokenizer.tokenize query := rfl
        rw [hq2]
        rw [if_neg hq, if_neg hq]
        have hdl : ((dgetD (idx.withTf term doc_id newTf).doc_lens doc_id 0 : ℕ) : ℚ) =
            ((dgetD idx.doc_lens doc_id 0 : ℕ) : ℚ) := rfl
        have havgeq : (idx.withTf term doc_id newTf).avg_doc_len =
            idx.avg_doc_len := rfl
        rw [hdl, havgeq]
        apply foldl_add_mono _ _ _ 0 0 (le_refl 0)
        intro t ht
        set dl : ℚ := ((dgetD idx.doc_lens doc_id 0 : ℕ) : ℚ) with hdl_def
        set avgdl : ℚ := (if idx.avg_doc_len = 0 then 1 else idx.avg_doc_len)
          with havgdl_def
        have havgpos : 0 < avgdl := by
          rw [havgdl_def]
          by_cases h0 : idx.avg_doc_len = 0
          · rw [if_pos h0]
            norm_num
          · rw [if_neg h0]
            exact lt_of_le_of_ne havg (fun he => h0 he.symm)
        have hKnn : 0 ≤ s.k1 * (1 - s.b + s.b * dl / avgdl) := by
          have hdlnn : (0:ℚ) ≤ dl := by
            rw [hdl_def]
            positivity
          have : 0 ≤ s.b * dl / avgdl := by positivity
          nlinarith
        by_cases hterm : t = term
        · subst hterm
          simp only [scoreTermContribution]
          have hmem : dmem idx.term_dict t = true := by simp [dmem, hdt]
          have hmem2 : dmem (idx.withTf t doc_id newTf).term_dict t = true := hmem
          rw [if_pos hmem, if_pos hmem2]
          rw [hpost, tfLookup_dset]
          have hidf2 : dgetD (idx.withTf t doc_id newTf).idf t 0 =
              dgetD idx.idf t 0 := rfl
          rw [hidf2]
          exact bm25_tf_mono _ s.k1 _ _ _ hidf hk1 hKnn (by positivity)
            (by exact_mod_cast htf)
        · simp only [scoreTermContribution]
          have hmemeq : dmem (idx.withTf term doc_id newTf).term_dict t =
              dmem idx.term_dict t := rfl
          rw [hmemeq]
          by_cases hm : dmem idx.term_dict t = true
          · rw [if_pos hm, if_pos hm, hpost_ne t hterm]
            have : dgetD (idx.withTf term doc_id newTf).idf t 0 =
                dgetD idx.idf t 0 := rfl
            rw [this]
          · rw [if_neg hm, if_neg hm]
    · -- term id out of range: `List.set` beyond the length is the identity
      have hsame : idx.withTf term doc_id newTf = idx := by
        simp only [InvertedIndex.withTf, hdt]
        rw [List.set_eq_of_length_le (by omega)]
      rw [hsame]

/-- A small hand-built index for the C7 witness: one document of length 2
containing `hello` and `world` once each. -/
def bm25MonoWitnessIndex : InvertedIndex :=
  { tokenizer := {}
    term_dict := [("hello", 0), ("world", 1)]
    posting_lists := [[(0, 1)], [(0, 1)]]
    doc_count := 1
    avg_doc_len := 2
    doc_lens := [(0, 2)]
    df := [("hello", 1), ("world", 1)]
    idf := [("hello", 1/2), ("world", 1/2)] }

/-- Witness for C7: raising `hello`'s tf in document 0 from 1 to 3 does not
decrease the document's score for the query `"hello"`. -/
theorem c7_bm25_tf_monotonicity_witness :
    BM25Scorer.score {} bm25MonoWitnessIndex 0 ("hello") ≤
      BM25Scorer.score {} (bm25MonoWitnessIndex.withTf ("hello") 0 3) 0
        ("hello") := by
  refine c7_bm25_tf_monotonicity {} bm25MonoWitnessIndex ("hello") 0 3
    ("hello") (by norm_num) (by norm_num) (by norm_num) ?_ ?_ (by decide) ?_
  · rw [show bm25MonoWitnessIndex.avg_doc_len = 2 from rfl]
    norm_num
  · rw [show dgetD bm25MonoWitnessIndex.idf ("hello") 0 = 1/2 from rfl]
    norm_num
  · intro t ht h2
    have hks : t ∈ dkeys bm25MonoWitnessIndex.term_dict :=
      (dmem_iff_mem_dkeys _ t).mp ht
    rw [show dkeys bm25MonoWitnessIndex.term_dict = ["hello", "world"]
      from rfl] at hks
    rcases List.mem_cons.mp hks with h | h
    · exact h
    · rw [List.mem_singleton] at h
      subst h
      rw [show dget? bm25MonoWitnessIndex.term_dict ("world") = some 1 from rfl,
        show dget? bm25MonoWitnessIndex.term_dict ("hello") = some 0 from rfl]
        at h2
      exact absurd h2 (by decide)

theorem buildTokenLoop_df (i : ℕ) :
    ∀ (tokens : List String) (tdf : List (String × List (ℕ × ℕ)))
      (df : List (String × ℕ)) (seen : List String) (t : String),
      dget? (buildTokenLoop i tokens tdf df seen).2 t =
        if t ∈ tokens ∧ t ∉ seen then some (dgetD df t 0 + 1) else dget? df t
  | [], tdf, df, seen, t => by simp [buildTokenLoop]
  | u :: rest, tdf, df, seen, t => by
    simp only [buildTokenLoop]
    by_cases hu : u ∈ seen
    · rw [if_pos hu]
      rw [buildTokenLoop_df i rest _ df seen t]
      have hiff : (t ∈ rest ∧ t ∉ seen) ↔ (t ∈ u :: rest ∧ t ∉ seen) := by
        constructor
        · rintro ⟨h1, h2⟩
          exact ⟨List.mem_cons_of_mem u h1, h2⟩
        · rintro ⟨h1, h2⟩
          rcases List.mem_cons.mp h1 with h3 | h3
          · exact absurd (h3 ▸ hu) h2
          · exact ⟨h3, h2⟩
      rw [if_congr hiff rfl rfl]
    · rw [if_neg hu]
      rw [buildTokenLoop_df i rest _ _ _ t]
      by_cases htu : t = u
      · subst htu
        have hnotin : ¬(t ∈ rest ∧ t ∉ t :: seen) := by
          rintro ⟨_, h2⟩
          exact h2 (List.mem_cons_self t seen)
        rw [if_neg hnotin, if_pos ⟨List.mem_cons_self t rest, hu⟩]
        exact dget?_dset_self df t _
      · have hiff : (t ∈ rest ∧ t ∉ u :: seen) ↔ (t ∈ u :: rest ∧ t ∉ seen) := by
          constructor
          · rintro ⟨h1, h2⟩
            exact ⟨List.mem_cons_of_mem u h1,
              fun h3 => h2 (List.mem_cons_of_mem u h3)⟩
          · rintro ⟨h1, h2⟩
            refine ⟨?_, ?_⟩
            · rcases List.mem_cons.mp h1 with h3 | h3
              · exact absurd h3 htu
              · exact h3
            · intro h3
              rcases List.mem_cons.mp h3 with h4 | h4
              · exact htu h4
              · exact h2 h4
        rw [if_congr hiff rfl rfl]
        rw [dgetD_dset_ne df u t _ 0 (fun he => htu he.symm),
          dget?_dset_ne df u t _ (fun he => htu he.symm)]

theorem buildTokenLoop_df_value (i : ℕ) (tokens : List String)
    (tdf : List (String × List (ℕ × ℕ))) (df : List (String × ℕ))
    (t : String) :
    dgetD (buildTokenLoop i tokens tdf df []).2 t 0 =
      dgetD df t 0 + (if t ∈ tokens then 1 else 0) := by
  unfold dgetD
  rw [buildTokenLoop_df i tokens tdf df [] t]
  by_cases h : t ∈ tokens
  · rw [if_pos ⟨h, List.not_mem_nil t⟩, if_pos h]
    rfl
  · have hno : ¬(t ∈ tokens ∧ t ∉ ([] : List String)) := fun hc => h hc.1
    rw [if_neg hno, if_neg h, add_zero]

theorem buildTokenLoop_df_nodup (i : ℕ) :
    ∀ (tokens : List String) (tdf : List (String × List (ℕ × ℕ)))
      (df : List (String × ℕ)) (seen : List String),
      (dkeys df).Nodup → (dkeys (buildTokenLoop i tokens tdf df seen).2).Nodup
  | [], tdf, df, seen, h => h
  | u :: rest, tdf, df, seen, h => by
    simp only [buildTokenLoop]
    by_cases hu : u ∈ seen
    · rw [if_pos hu]
      exact buildTokenLoop_df_nodup i rest _ df seen h
    · rw [if_neg hu]
      exact buildTokenLoop_df_nodup i rest _ _ _ (nodup_dkeys_dset df u _ h)

theorem buildDocLoop_df_value (tok : Tokenizer) :
    ∀ (docs : List String) (i : ℕ) (tdf : List (String × List (ℕ × ℕ)))
      (dls : List (ℕ × ℕ)) (df : List (String × ℕ)) (t : String),
      dgetD (buildDocLoop tok i docs (tdf, dls, df)).2.2 t 0 =
        dgetD df t 0 +
          docs.countP (fun d => decide (t ∈ tok.tokenize d))
  | [], i, tdf, dls, df, t => by simp [buildDocLoop]
  | doc :: rest, i, tdf, dls, df, t => by
    simp only [buildDocLoop]
    rw [buildDocLoop_df_value tok rest (i + 1) _ _ _ t]
    rw [buildTokenLoop_df_value i (tok.tokenize doc) tdf df t]
    rw [List.countP_cons]
    by_cases h : t ∈ tok.tokenize doc
    · simp [h]
      ring
    · simp [h]

theorem buildDocLoop_df_nodup (tok : Tokenizer) :
    ∀ (docs : List String) (i : ℕ) (tdf : List (String × List (ℕ × ℕ)))
      (dls : List (ℕ × ℕ)) (df : List (String × ℕ)),
      (dkeys df).Nodup → (dkeys (buildDocLoop tok i docs (tdf, dls, df)).2.2).Nodup
  | [], i, tdf, dls, df, h => h
  | doc :: rest, i, tdf, dls, df, h => by
    simp only [buildDocLoop]
    exact buildDocLoop_df_nodup tok rest (i + 1) _ _ _
      (buildTokenLoop_df_nodup i (tok.tokenize doc) tdf df [] h)

theorem computeIdf_get (Lg : ℚ → ℚ) (N : ℕ) :
    ∀ (df : List (String × ℕ)) (idf0 : List (String × ℚ)) (t : String),
      (dkeys df).Nodup →
      dget? (computeIdf Lg N df idf0) t =
        match dget? df t with
        | some v =>
          some (Lg ((((N : ℚ) - (v : ℚ) + 1/2) / ((v : ℚ) + 1/2)) + 1))
        | none => dget? idf0 t
  | [], idf0, t, _ => by simp [computeIdf, dget?]
  | (u, v) :: tl, idf0, t, hnd => by
    rw [dkeys_cons] at hnd
    rcases List.nodup_cons.mp hnd with ⟨hu, htl⟩
    simp only [computeIdf, List.foldl_cons]
    rw [show (List.foldl _ (dset idf0 u _) tl) = computeIdf Lg N tl
      (dset idf0 u (Lg ((((N : ℚ) - (v : ℚ) + 1/2) / ((v : ℚ) + 1/2)) + 1)))
      from rfl]
    rw [computeIdf_get Lg N tl _ t htl]
    by_cases htu : t = u
    · subst htu
      have hnone : dget? tl t = none := by
        rcases h : dget? tl t with _ | w
        · rfl
        · exact absurd ((dmem_iff_mem_dkeys tl t).mp (by simp [dmem, h])) hu
      rw [hnone]
      simp only [dget?, if_pos rfl]
      exact dget?_dset_self idf0 t _
    · have hne : ((u, v) : String × ℕ).1 ≠ t := fun he => htu he.symm
      have hout : dget? ((u, v) :: tl) t = dget? tl t := by
        simp [dget?, hne]
      rw [hout]
      rcases h : dget? tl t with _ | w
      · exact dget?_dset_ne idf0 u t _ (fun he => htu he.symm)
      · rfl

theorem dset_append_of_not_mem {α β : Type} [DecidableEq α] :
    ∀ (d : List (α × β)) (k : α) (v : β), dmem d k = false →
      dset d k v = d ++ [(k, v)]
  | [], k, v, _ => rfl
  | (x, y) :: tl, k, v, h => by
    have hne : x ≠ k := by
      intro he
      subst he
      simp [dmem, dget?] at h
    simp only [dset, if_neg hne, List.cons_append]
    rw [dset_append_of_not_mem tl k v (by simpa [dmem, dget?, hne] using h)]

theorem buildDocLoop_doclens (tok : Tokenizer) :
    ∀ (docs : List String) (i : ℕ) (tdf : List (String × List (ℕ × ℕ)))
      (dls : List (ℕ × ℕ)) (df : List (String × ℕ)),
      (∀ k ∈ dkeys dls, k < i) →
      (buildDocLoop tok i docs (tdf, dls, df)).2.1 =
        dls ++ (List.enumFrom i docs).map
          (fun p => (p.1, (tok.tokenize p.2).length))
  | [], i, tdf, dls, df, _ => by simp [buildDocLoop, List.enumFrom]
  | doc :: rest, i, tdf, dls, df, hk => by
    simp only [buildDocLoop]
    have hnm : dmem dls i = false := by
      by_cases h : dmem dls i = true
      · exact absurd (hk i ((dmem_iff_mem_dkeys dls i).mp h)) (lt_irrefl i)
      · simpa using h
    have hk2 : ∀ k ∈ dkeys (dset dls i (tok.tokenize doc).length), k < i + 1 := by
      intro k hkm
      rw [dkeys_dset, hnm] at hkm
      simp only [Bool.false_eq_true, if_false] at hkm
      rcases List.mem_append.mp hkm with h | h
      · exact Nat.lt_succ_of_lt (hk k h)
      · rw [List.mem_singleton] at h
        omega
    rw [buildDocLoop_doclens tok rest (i + 1) _ _ _ hk2]
    rw [dset_append_of_not_mem dls i _ hnm]
    rw [List.append_assoc]
    rfl

theorem mapsnd_enumFrom_map {α β : Type} (f : α → β) :
    ∀ (l : List α) (i : ℕ),
      ((List.enumFrom i l).map (fun p => (p.1, f p.2))).map Prod.snd = l.map f
  | [], _ => rfl
  | x :: xs, i => by
    simp only [List.enumFrom, List.map_cons]
    rw [mapsnd_enumFrom_map f xs (i + 1)]

/-- Claim C8: after `InvertedIndex.build` on any corpus from a fresh index,
every recorded term's `idf` equals `Lg((N - df + 0.5)/(df + 0.5) + 1)` where
`Lg` models `math.log`, `df` is the number of distinct documents containing
the term, and this value is non-negative (since `df ≤ N`, the argument is
at least 1); `avg_doc_len` is the sum of tokenized document lengths divided
by `N`, and 0 for the empty corpus. -/
theorem c8_idf_formula (tok : Tokenizer) (Lg : ℚ → ℚ) (docs : List String)
    (hLg : ∀ q : ℚ, 1 ≤ q → 0 ≤ Lg q) :
    (∀ t dfv, dget? ((InvertedIndex.init tok).build Lg docs).df t = some dfv →
        (dfv = docs.countP (fun d => decide (t ∈ tok.tokenize d))
          ∧ dgetD ((InvertedIndex.init tok).build Lg docs).idf t 0 =
              Lg ((((docs.length : ℚ) - (dfv : ℚ) + 1/2) /
                ((dfv : ℚ) + 1/2)) + 1)
          ∧ 0 ≤ dgetD ((InvertedIndex.init tok).build Lg docs).idf t 0))
      ∧ (0 < docs.length →
          ((InvertedIndex.init tok).build Lg docs).avg_doc_len =
            ((docs.map (fun d => (tok.tokenize d).length)).sum : ℚ) /
              (docs.length : ℚ))
      ∧ (docs.length = 0 →
          ((InvertedIndex.init tok).build Lg docs).avg_doc_len = 0) := by
  have hdf : ((InvertedIndex.init tok).build Lg docs).df =
      (buildDocLoop tok 0 docs ([], [], [])).2.2 := rfl
  have hidf : ((InvertedIndex.init tok).build Lg docs).idf =
      computeIdf Lg docs.length (buildDocLoop tok 0 docs ([], [], [])).2.2
        [] := rfl
  have hnd : (dkeys (buildDocLoop tok 0 docs ([], [], [])).2.2).Nodup :=
    buildDocLoop_df_nodup tok docs 0 [] [] [] List.nodup_nil
  have hdls : (buildDocLoop tok 0 docs ([], [], [])).2.1 =
      (List.enumFrom 0 docs).map (fun p => (p.1, (tok.tokenize p.2).length)) := by
    have := buildDocLoop_doclens tok docs 0 [] [] []
      (by intro k hkm; simp [dkeys] at hkm)
    simpa using this
  have havg : ((InvertedIndex.init tok).build Lg docs).avg_doc_len =
      ((((buildDocLoop tok 0 docs ([], [], [])).2.1.map Prod.snd).sum : ℕ) : ℚ) /
        ((max 1 docs.length : ℕ) : ℚ) := rfl
  refine ⟨?_, ?_, ?_⟩
  · intro t dfv h
    rw [hdf] at h
    have hval := buildDocLoop_df_value tok docs 0 [] [] [] t
    rw [dgetD, h] at hval
    simp only [Option.getD_some, dgetD, dget?, Option.getD_none] at hval
    have hdfv : dfv = docs.countP (fun d => decide (t ∈ tok.tokenize d)) := by
      omega
    have hle : dfv ≤ docs.length := by
      rw [hdfv]
      exact List.countP_le_length _
    have harg : (1 : ℚ) ≤ (((docs.length : ℚ) - (dfv : ℚ) + 1/2) /
        ((dfv : ℚ) + 1/2)) + 1 := by
      have hnum : (0:ℚ) ≤ (docs.length : ℚ) - (dfv : ℚ) + 1/2 := by
        have : (dfv : ℚ) ≤ (docs.length : ℚ) := by exact_mod_cast hle
        linarith
      have hden : (0:ℚ) ≤ (dfv : ℚ) + 1/2 := by positivity
      have := div_nonneg hnum hden
      linarith
    have hidfval : dgetD ((InvertedIndex.init tok).build Lg docs).idf t 0 =
        Lg ((((docs.length : ℚ) - (dfv : ℚ) + 1/2) / ((dfv : ℚ) + 1/2)) + 1) := by
      rw [hidf, dgetD, computeIdf_get Lg docs.length _ [] t hnd, h]
      rfl
    exact ⟨hdfv, hidfval, hidfval ▸ hLg _ harg⟩
  · intro hpos
    rw [havg, hdls]
    rw [mapsnd_enumFrom_map (fun d => (tok.tokenize d).length) docs 0]
    rw [Nat.max_eq_right (by omega : 1 ≤ docs.length)]
  · intro hzero
    rw [List.length_eq_zero] at hzero
    subst hzero
    rw [havg]
    norm_num
    rfl

/-- Witness for C8 on the corpus `["hello world", "hello hello"]` with the
stand-in logarithm `Lg q = q - 1` (non-negative on `[1, ∞)`): the stored
idf of `"hello"` is non-negative and the average length is the token sum
over 2. -/
theorem c8_idf_formula_witness :
    (0 ≤ dgetD ((InvertedIndex.init {}).build (fun q => q - 1)
        ["hello world", "hello hello"]).idf ("hello") 0)
      ∧ ((InvertedIndex.init {}).build (fun q => q - 1)
          ["hello world", "hello hello"]).avg_doc_len =
        (((["hello world", "hello hello"].map
          (fun d => (Tokenizer.tokenize {} d).length)).sum : ℚ) / (2 : ℚ)) := by
  have h := c8_idf_formula {} (fun q => q - 1) ["hello world", "hello hello"]
    (fun q hq => sub_nonneg.mpr hq)
  refine ⟨(h.1 ("hello") 2 rfl).2.2, ?_⟩
  exact h.2.1 (by decide)

/-- The resolvable parent id of a child: present iff
`metadata["parent_chunk_id"]` exists and `int(...)` succeeds. -/
def resolvedPid (d : PDoc) : Option ℤ :=
  match d.parent_chunk_id with
  | some (some pid) => some pid
  | _ => none

/-- Spec-side: the rerank scores of the children resolving to `pid`, in
child order. -/
def childScores (docs : List PDoc) (pid : ℤ) : List ℚ :=
  (docs.filter (fun d => decide (resolvedPid d = some pid))).map
    (fun d => d.rerank_score.getD 0)

/-- Spec-side: first-seen-order deduplication. -/
def specFirstSeen (l : List ℤ) : List ℤ :=
  l.foldl (fun acc p => if p ∈ acc then acc else acc ++ [p]) []

theorem parentScan_fallback :
    ∀ (docs : List PDoc) (st : List (ℤ × ℚ) × List ℤ × List PDoc),
      (parentScan docs st).2.2 =
        st.2.2 ++ docs.filter (fun d => (resolvedPid d).isNone)
  | [], st => by simp [parentScan]
  | d :: rest, st => by
    rcases st with ⟨pscores, porder, fallback⟩
    rcases hd : d.parent_chunk_id with _ | pc
    · simp only [parentScan, hd]
      rw [parentScan_fallback rest _]
      simp [resolvedPid, hd, List.filter_cons]
    · rcases pc with _ | pid
      · simp only [parentScan, hd]
        rw [parentScan_fallback rest _]
        simp [resolvedPid, hd, List.filter_cons]
      · simp only [parentScan, hd]
        by_cases hm : dmem pscores pid = true
        · rw [if_pos hm, parentScan_fallback rest _]
          simp [resolvedPid, hd, List.filter_cons]
        · rw [if_neg hm, parentScan_fallback rest _]
          simp [resolvedPid, hd, List.filter_cons]

theorem parentScan_porder :
    ∀ (docs : List PDoc) (st : List (ℤ × ℚ) × List ℤ × List PDoc),
      (∀ p : ℤ, dmem st.1 p = true ↔ p ∈ st.2.1) →
      (parentScan docs st).2.1 =
        (docs.filterMap resolvedPid).foldl
          (fun acc p => if p ∈ acc then acc else acc ++ [p]) st.2.1
  | [], st, _ => by simp [parentScan]
  | d :: rest, st, hinv => by
    rcases st with ⟨pscores, porder, fallback⟩
    rcases hd : d.parent_chunk_id with _ | pc
    · simp only [parentScan, hd]
      rw [parentScan_porder rest (pscores, porder, fallback ++ [d])
        (fun p => hinv p)]
      simp [resolvedPid, hd, List.filterMap_cons]
    · rcases pc with _ | pid
      · simp only [parentScan, hd]
        rw [parentScan_porder rest (pscores, porder, fallback ++ [d])
          (fun p => hinv p)]
        simp [resolvedPid, hd, List.filterMap_cons]
      · simp only [parentScan, hd]
        by_cases hm : dmem pscores pid = true
        · rw [if_pos hm]
          have hinv2 : ∀ p : ℤ, dmem (dset pscores pid
              (max (dgetD pscores pid 0) (d.rerank_score.getD 0))) p = true ↔
              p ∈ porder := by
            intro p
            by_cases hp : pid = p
            · subst hp
              rw [dmem_dset_self]
              constructor
              · intro _
                exact (hinv pid).mp hm
              · intro _
                rfl
            · rw [dmem_dset_ne _ _ _ _ hp]
              exact hinv p
          rw [parentScan_porder rest _ hinv2]
          have hmem : pid ∈ porder := (hinv pid).mp hm
          simp [resolvedPid, hd, List.filterMap_cons, hmem]
        · rw [if_neg hm]
          have hnmem : pid ∉ porder := fun hmem => hm ((hinv pid).mpr hmem)
          have hinv2 : ∀ p : ℤ, dmem (dset pscores pid
              (d.rerank_score.getD 0)) p = true ↔
              p ∈ porder ++ [pid] := by
            intro p
            by_cases hp : pid = p
            · subst hp
              rw [dmem_dset_self]
              constructor
              · intro _
                simp
              · intro _
                rfl
            · rw [dmem_dset_ne _ _ _ _ hp]
              simp only [List.mem_append, List.mem_singleton]
              constructor
              · intro h
                exact Or.inl ((hinv p).mp h)
              · intro h
                rcases h with h | h
                · exact (hinv p).mpr h
                · exact absurd h.symm hp
          rw [parentScan_porder rest _ hinv2]
          simp [resolvedPid, hd, List.filterMap_cons, hnmem]

theorem parentScan_scores :
    ∀ (docs : List PDoc) (st : List (ℤ × ℚ) × List ℤ × List PDoc) (pid : ℤ),
      dget? (parentScan docs st).1 pid =
        match dget? st.1 pid, childScores docs pid with
        | none, [] => none
        | none, s :: rest => some (rest.foldl max s)
        | some s0, l => some (l.foldl max s0)
  | [], st, pid => by
    rcases h : dget? st.1 pid with _ | s0
    · simp [parentScan, childScores, h]
    · simp [parentScan, childScores, h]
  | d :: rest, st, pid => by
    rcases st with ⟨pscores, porder, fallback⟩
    rcases hd : d.parent_chunk_id with _ | pc
    · simp only [parentScan, hd]
      rw [parentScan_scores rest _ pid]
      have : childScores (d :: rest) pid = childScores rest pid := by
        simp [childScores, List.filter_cons, resolvedPid, hd]
      rw [this]
    · rcases pc with _ | pid2
      · simp only [parentScan, hd]
        rw [parentScan_scores rest _ pid]
        have : childScores (d :: rest) pid = childScores rest pid := by
          simp [childScores, List.filter_cons, resolvedPid, hd]
        rw [this]
      · by_cases hp : pid2 = pid
        · subst hp
          have hcs : childScores (d :: rest) pid2 =
              d.rerank_score.getD 0 :: childScores rest pid2 := by
            simp [childScores, List.filter_cons, resolvedPid, hd]
          simp only [parentScan, hd]
          by_cases hm : dmem pscores pid2 = true
          · rw [if_pos hm]
            rw [parentScan_scores rest _ pid2]
            rcases h0 : dget? pscores pid2 with _ | s0
            · rw [dmem] at hm
              rw [h0] at hm
              simp at hm
            · rw [dget?_dset_self, hcs]
              have hs0 : dgetD pscores pid2 0 = s0 := by simp [dgetD, h0]
              rw [hs0]
              cases childScores rest pid2 <;> rfl
          · rw [if_neg hm]
            rw [parentScan_scores rest _ pid2]
            have h0 : dget? pscores pid2 = none := by
              rcases h1 : dget? pscores pid2 with _ | s0
              · rfl
              · rw [dmem, h1] at hm
                simp at hm
            rw [dget?_dset_self, h0, hcs]
        · have hcs : childScores (d :: rest) pid = childScores rest pid := by
            simp only [childScores, List.filter_cons]
            have : (decide (resolvedPid d = some pid)) = false := by
              simp [resolvedPid, hd, hp]
            rw [this]
            simp
          simp only [parentScan, hd]
          by_cases hm : dmem pscores pid2 = true
          · rw [if_pos hm]
            rw [parentScan_scores rest _ pid]
            rw [dget?_dset_ne _ _ _ _ hp, hcs]
          · rw [if_neg hm]
            rw [parentScan_scores rest _ pid]
            rw [dget?_dset_ne _ _ _ _ hp, hcs]

/-- Claim C5: with parent storage available, `restore_parents` max-
aggregates each parent id's score over its children (first-seen parent
order, characterized by the head-seeded `foldl max` over the children's
scores), passes children without a resolvable parent id through unchanged
into the fallback set, passes `fetch_parent_chunks` a parent-id list
truncated to `k` (so at most `k` fetches), and returns at most `k`
documents sorted descending by attached score. -/
theorem c5_restore_parents (fetch : List ℤ → Except String (List PChunk))
    (docs : List PDoc) (k : ℕ) (hk : 0 < k) :
    ((parentFetchArg docs k).length ≤ k
        ∧ parentFetchArg docs k =
            (specFirstSeen (docs.filterMap resolvedPid)).take k)
      ∧ (∀ pid, dget? (parentScan docs ([], [], [])).1 pid =
          match childScores docs pid with
          | [] => none
          | s :: rest => some (rest.foldl max s))
      ∧ (parentScan docs ([], [], [])).2.2 =
          docs.filter (fun d => (resolvedPid d).isNone)
      ∧ (restoreParents true fetch docs k).length ≤ k
      ∧ ((restoreParents true fetch docs k).map
          (fun d => d.rerank_score.getD 0)).Pairwise (fun a b => b ≤ a) := by
  have hporder : (parentScan docs ([], [], [])).2.1 =
      specFirstSeen (docs.filterMap resolvedPid) := by
    rw [parentScan_porder docs ([], [], [])
      (by intro p; simp [dmem, dget?])]
    rfl
  refine ⟨⟨?_, ?_⟩, ?_, ?_, ?_, ?_⟩
  · unfold parentFetchArg
    exact List.length_take_le k _
  · unfold parentFetchArg
    rw [hporder]
  · intro pid
    rw [parentScan_scores docs ([], [], []) pid]
    rw [show dget? (([], [], []) :
      List (ℤ × ℚ) × List ℤ × List PDoc).1 pid = none from rfl]
    cases childScores docs pid <;> rfl
  · exact parentScan_fallback docs ([], [], [])
  · by_cases hdocs : docs = []
    · simp [restoreParents, hdocs]
    · simp only [restoreParents, if_neg hdocs, Bool.not_true,
        Bool.false_eq_true, if_false]
      exact List.length_take_le k _
  · by_cases hdocs : docs = []
    · simp [restoreParents, hdocs]
    · simp only [restoreParents, if_neg hdocs, Bool.not_true,
        Bool.false_eq_true, if_false]
      exact List.Pairwise.map _ (fun a b h => h)
        ((sortDescBy_pairwise _ _).sublist (List.take_sublist k _))

/-- Child documents for the C5 witness: five scored children over three
distinct parents plus one fallback chunk without a parent id. -/
def c5WitnessDocs : List PDoc :=
  [{ pageContent := "c1", rerank_score := some 5, parent_chunk_id := some (some 11) },
   { pageContent := "c2", rerank_score := some 4, parent_chunk_id := some (some 12) },
   { pageContent := "c3", rerank_score := some 9, parent_chunk_id := some (some 11) },
   { pageContent := "c4", rerank_score := none, parent_chunk_id := none },
   { pageContent := "c5", rerank_score := some 2, parent_chunk_id := some (some 13) },
   { pageContent := "c6", rerank_score := some 1, parent_chunk_id := some none }]

/-- Witness for C5 at `k = 2`: the id list handed to the parent fetch has
at most 2 entries and is the first-seen dedup truncated to 2; the
unresolvable children pass through into the fallback set. -/
theorem c5_restore_parents_witness :
    ((parentFetchArg c5WitnessDocs 2).length ≤ 2
        ∧ parentFetchArg c5WitnessDocs 2 =
            (specFirstSeen (c5WitnessDocs.filterMap resolvedPid)).take 2)
      ∧ (parentScan c5WitnessDocs ([], [], [])).2.2 =
          c5WitnessDocs.filter (fun d => (resolvedPid d).isNone) := by
  have h := c5_restore_parents (fun _ => Except.ok []) c5WitnessDocs 2
    (by decide)
  exact ⟨h.1, h.2.2.1⟩

theorem sortDescBy_three {α : Type} (key : α → ℚ) (x y z : α)
    (h1 : key z < key y) (h2 : key y < key x) :
    sortDescBy key [x, y, z] = [x, y, z] := by
  simp only [sortDescBy, insertDescBy, if_pos h1, if_pos h2]

theorem scoreTermContribution_eval (s : BM25Scorer) (idx : InvertedIndex)
    (dl avgdl : ℚ) (did : ℕ) (term : String) (tfv : ℕ) (idfv D : ℚ)
    (hm : dmem idx.term_dict term = true)
    (htf : tfLookup (idx.get_postings term) did = tfv)
    (hidf : dgetD idx.idf term 0 = idfv)
    (hD : (tfv : ℚ) + s.k1 * (1 - s.b + s.b * dl / avgdl) = D)
    (hpos : 0 < D) :
    scoreTermContribution s idx dl avgdl did term =
      idfv * ((tfv : ℚ) * (s.k1 + 1)) / D := by
  simp only [scoreTermContribution, hm, if_true, htf, hidf, hD]
  rw [if_pos hpos]

theorem scoreTermContribution_skip (s : BM25Scorer) (idx : InvertedIndex)
    (dl avgdl : ℚ) (did : ℕ) (term : String)
    (hm : dmem idx.term_dict term = false) :
    scoreTermContribution s idx dl avgdl did term = 0 := by
  simp [scoreTermContribution, hm]

/-- The C9 retriever: the spec's three-document corpus freshly indexed. -/
def rcC9 (Lg : ℚ → ℚ) : BM25Retriever :=
  (BM25Retriever.mkInit jiebaCutNonHan (3/2) (3/4) 100).add_documents Lg
    [{ pageContent := "python is a programming language" },
     { pageContent := "java is also programming" },
     { pageContent := "python machine learning" }]

/-- Claim C9: on the freshly indexed corpus `["python is a programming
language", "java is also programming", "python machine learning"]`, the
query `"python programming"` with `top_k = 2` returns exactly documents 0
and 2 (the two containing "python"), and document 1 is excluded.  The only
analytic fact needed about the host `log` is that the shared idf argument
8/5 has positive logarithm. -/
theorem c9_end_to_end_search (Lg : ℚ → ℚ) (hLg : 0 < Lg (8/5)) :
    ((rcC9 Lg).search ("python programming") 2).1.map
      (fun p => p.1.pageContent) =
    ["python is a programming language", "python machine learning"] := by
  have hq : (rcC9 Lg).index.tokenizer.tokenize ("python programming") =
      ["python", "programming", "pythonprogramming"] := rfl
  have havg_raw : (rcC9 Lg).index.avg_doc_len = ((14:ℕ):ℚ)/((3:ℕ):ℚ) := rfl
  have havg : (rcC9 Lg).index.avg_doc_len = 14/3 := by
    rw [havg_raw]
    push_cast
    norm_num
  have havgne : ¬((rcC9 Lg).index.avg_doc_len = 0) := by
    rw [havg]
    norm_num
  have harg : ((((3:ℕ):ℚ) - ((2:ℕ):ℚ) + 1/2) / (((2:ℕ):ℚ) + 1/2) + 1) =
      8/5 := by
    push_cast
    norm_num
  have hidfp : dgetD (rcC9 Lg).index.idf ("python") 0 = Lg (8/5) := by
    rw [show dgetD (rcC9 Lg).index.idf ("python") 0 =
      Lg ((((3:ℕ):ℚ) - ((2:ℕ):ℚ) + 1/2) / (((2:ℕ):ℚ) + 1/2) + 1) from rfl,
      harg]
  have hidfg : dgetD (rcC9 Lg).index.idf ("programming") 0 = Lg (8/5) := by
    rw [show dgetD (rcC9 Lg).index.idf ("programming") 0 =
      Lg ((((3:ℕ):ℚ) - ((2:ℕ):ℚ) + 1/2) / (((2:ℕ):ℚ) + 1/2) + 1) from rfl,
      harg]
  have hs0 : ({ k1 := 3/2, b := 3/4 } : BM25Scorer).score (rcC9 Lg).index 0
      ("python programming") = Lg (8/5) * (560/289) := by
    have hdl : ((dgetD (rcC9 Lg).index.doc_lens 0 0 : ℕ) : ℚ) = 5 := by
      rw [show ((dgetD (rcC9 Lg).index.doc_lens 0 0 : ℕ) : ℚ) = ((5:ℕ):ℚ)
        from rfl]
      push_cast
      ring
    simp only [BM25Scorer.score, hq]
    rw [if_neg (by decide : ¬(["python", "programming", "pythonprogramming"] =
      ([] : List String)))]
    simp only [List.foldl_cons, List.foldl_nil]
    rw [hdl, if_neg havgne, havg]
    rw [scoreTermContribution_eval { k1 := 3/2, b := 3/4 } (rcC9 Lg).index
      5 (14/3) 0 ("python") 1 (Lg (8/5)) (289/112)
      rfl rfl hidfp (by push_cast; norm_num) (by norm_num)]
    rw [scoreTermContribution_eval { k1 := 3/2, b := 3/4 } (rcC9 Lg).index
      5 (14/3) 0 ("programming") 1 (Lg (8/5)) (289/112)
      rfl rfl hidfg (by push_cast; norm_num) (by norm_num)]
    rw [scoreTermContribution_skip { k1 := 3/2, b := 3/4 } (rcC9 Lg).index
      5 (14/3) 0 ("pythonprogramming") rfl]
    push_cast
    ring
  have hs1 : ({ k1 := 3/2, b := 3/4 } : BM25Scorer).score (rcC9 Lg).index 1
      ("python programming") = Lg (8/5) * (280/289) := by
    have hdl : ((dgetD (rcC9 Lg).index.doc_lens 1 0 : ℕ) : ℚ) = 5 := by
      rw [show ((dgetD (rcC9 Lg).index.doc_lens 1 0 : ℕ) : ℚ) = ((5:ℕ):ℚ)
        from rfl]
      push_cast
      ring
    simp only [BM25Scorer.score, hq]
    rw [if_neg (by decide : ¬(["python", "programming", "pythonprogramming"] =
      ([] : List String)))]
    simp only [List.foldl_cons, List.foldl_nil]
    rw [hdl, if_neg havgne, havg]
    rw [scoreTermContribution_eval { k1 := 3/2, b := 3/4 } (rcC9 Lg).index
      5 (14/3) 1 ("python") 0 (Lg (8/5)) (177/112)
      rfl rfl hidfp (by push_cast; norm_num) (by norm_num)]
    rw [scoreTermContribution_eval { k1 := 3/2, b := 3/4 } (rcC9 Lg).index
      5 (14/3) 1 ("programming") 1 (Lg (8/5)) (289/112)
      rfl rfl hidfg (by push_cast; norm_num) (by norm_num)]
    rw [scoreTermContribution_skip { k1 := 3/2, b := 3/4 } (rcC9 Lg).index
      5 (14/3) 1 ("pythonprogramming") rfl]
    push_cast
    ring
  have hs2 : ({ k1 := 3/2, b := 3/4 } : BM25Scorer).score (rcC9 Lg).index 2
      ("python programming") = Lg (8/5) * (140/131) := by
    have hdl : ((dgetD (rcC9 Lg).index.doc_lens 2 0 : ℕ) : ℚ) = 4 := by
      rw [show ((dgetD (rcC9 Lg).index.doc_lens 2 0 : ℕ) : ℚ) = ((4:ℕ):ℚ)
        from rfl]
      push_cast
      ring
    simp only [BM25Scorer.score, hq]
    rw [if_neg (by decide : ¬(["python", "programming", "pythonprogramming"] =
      ([] : List String)))]
    simp only [List.foldl_cons, List.foldl_nil]
    rw [hdl, if_neg havgne, havg]
    rw [scoreTermContribution_eval { k1 := 3/2, b := 3/4 } (rcC9 Lg).index
      4 (14/3) 2 ("python") 1 (Lg (8/5)) (131/56)
      rfl rfl hidfp (by push_cast; norm_num) (by norm_num)]
    rw [scoreTermContribution_eval { k1 := 3/2, b := 3/4 } (rcC9 Lg).index
      4 (14/3) 2 ("programming") 0 (Lg (8/5)) (75/56)
      rfl rfl hidfg (by push_cast; norm_num) (by norm_num)]
    rw [scoreTermContribution_skip { k1 := 3/2, b := 3/4 } (rcC9 Lg).index
      4 (14/3) 2 ("pythonprogramming") rfl]
    push_cast
    ring
  have estep : ((rcC9 Lg).search ("python programming") 2).1 =
      (((sortDescBy (fun p : ℕ × ℚ => p.2)
        [(0, ({ k1 := 3/2, b := 3/4 } : BM25Scorer).score (rcC9 Lg).index 0
            ("python programming")),
         (2, ({ k1 := 3/2, b := 3/4 } : BM25Scorer).score (rcC9 Lg).index 2
            ("python programming")),
         (1, ({ k1 := 3/2, b := 3/4 } : BM25Scorer).score (rcC9 Lg).index 1
            ("python programming"))]).take 2).foldl collectResults
        ((rcC9 Lg).documents, [])).2 := rfl
  rw [estep, hs0, hs1, hs2]
  have i1 : Lg (8/5) * (280/289) < Lg (8/5) * (140/131) := by
    apply mul_lt_mul_of_pos_left _ hLg
    norm_num
  have i2 : Lg (8/5) * (140/131) < Lg (8/5) * (560/289) := by
    apply mul_lt_mul_of_pos_left _ hLg
    norm_num
  rw [sortDescBy_three (fun p : ℕ × ℚ => p.2)
    (0, Lg (8/5) * (560/289)) (2, Lg (8/5) * (140/131))
    (1, Lg (8/5) * (280/289)) i1 i2]
  rw [show List.take 2 [((0:ℕ), Lg (8/5) * (560/289)),
      (2, Lg (8/5) * (140/131)), (1, Lg (8/5) * (280/289))] =
    [(0, Lg (8/5) * (560/289)), (2, Lg (8/5) * (140/131))] from rfl]
  rw [show (rcC9 Lg).documents =
    [{ pageContent := "python is a programming language" },
     { pageContent := "java is also programming" },
     { pageContent := "python machine learning" }] from rfl]
  simp only [List.foldl_cons, List.foldl_nil, collectResults]
  norm_num

/-- Witness for C9 with the stand-in logarithm `Lg q = q - 1`
(positive at 8/5). -/
theorem c9_end_to_end_search_witness :
    ((rcC9 (fun q => q - 1)).search ("python programming") 2).1.map
      (fun p => p.1.pageContent) =
    ["python is a programming language", "python machine learning"] :=
  c9_end_to_end_search (fun q => q - 1) (by norm_num)

end AgFrame
